import Mathlib

/-!
Verification of the pyrill stream-processing engine against its
natural-language specification.  Each section shallowly embeds the relevant
Python code (src/pyrill) as executable Lean definitions and proves or refutes
the specification's claims about it.
-/

namespace Pyrill

/-!
## Element lifecycle state machine (base.py, `BaseElement`)

`ElementState`, `mount`, `unmount` and `_set_error` are translated directly
from `BaseElement`.  Subclass-specific setup/teardown (`_mount`/`_unmount`)
is abstracted by an `Option ε` argument: `none` means it returns normally,
`some ex` means it raises the exception `ex`.  Python exceptions that are not
user payloads (the `RuntimeError` raised by `mount` on an ERROR element) are
modelled by `PyEx.runtime`.
-/

inductive ElementState : Type
  | null
  | ready
  | error
deriving DecidableEq, Repr

inductive PyEx (ε : Type) : Type
  | user (ex : ε)
  | runtime
deriving DecidableEq, Repr

inductive MsgType (ε : Type) : Type
  | elementReady
  | elementNull
  | elementError (ex : PyEx ε)
  | frameSkipped
deriving DecidableEq, Repr

structure Elem (ε : Type) : Type where
  state : ElementState
  lastError : Option (PyEx ε)
deriving DecidableEq, Repr

inductive MountRes (ε : Type) : Type
  | ok
  | raised (ex : PyEx ε)
deriving DecidableEq, Repr

/-- `BaseElement._set_error`: no-op when already in ERROR; otherwise moves the
element to ERROR, records the exception as `lastError` and emits an
`element-error` bus message. -/
def setError {ε : Type} (el : Elem ε) (ex : PyEx ε) : Elem ε × List (MsgType ε) :=
  if el.state = ElementState.error then (el, [])
  else ({ state := ElementState.error, lastError := some ex }, [MsgType.elementError ex])

/-- `BaseElement.mount`: raises `RuntimeError` when in ERROR; no-op when the
state is not NULL; otherwise runs subclass setup and transitions to READY
emitting `element-ready`, driving the element to ERROR if setup raised. -/
def mount {ε : Type} (el : Elem ε) (setup : Option ε) :
    Elem ε × List (MsgType ε) × MountRes ε :=
  if el.state = ElementState.error then (el, [], MountRes.raised PyEx.runtime)
  else if el.state ≠ ElementState.null then (el, [], MountRes.ok)
  else
    match setup with
    | none => ({ el with state := ElementState.ready }, [MsgType.elementReady], MountRes.ok)
    | some ex =>
        let (el', msgs) := setError el (PyEx.user ex)
        (el', msgs, MountRes.raised (PyEx.user ex))

/-- `BaseElement.unmount`: no-op when the state is not READY; otherwise runs
subclass teardown and transitions to NULL emitting `element-null`, driving the
element to ERROR if teardown raised. -/
def unmount {ε : Type} (el : Elem ε) (teardown : Option ε) :
    Elem ε × List (MsgType ε) × MountRes ε :=
  if el.state ≠ ElementState.ready then (el, [], MountRes.ok)
  else
    match teardown with
    | none => ({ el with state := ElementState.null }, [MsgType.elementNull], MountRes.ok)
    | some ex =>
        let (el', msgs) := setError el (PyEx.user ex)
        (el', msgs, MountRes.raised (PyEx.user ex))

/-!
## Producer pull protocol (base.py, `BaseProducer.__anext__` and
`BaseConsumer.consume_frame`)

A call to the subclass hook `_next_frame` either returns a frame, raises the
skip signal, raises end-of-stream, or raises a fatal exception; successive
outcomes are supplied as a `List (Pull α ε)`.  `anext` replays
`BaseProducer.__anext__` over those outcomes and records the observable
events (bus messages, the returned frame, or the propagated exception) in
order.  If the list is exhausted while still retrying the call is still
pending and no terminal event is recorded.
-/

inductive Pull (α ε : Type) : Type
  | frame (v : α)
  | skip
  | eos
  | err (ex : ε)
deriving DecidableEq, Repr

inductive Event (α ε : Type) : Type
  | msg (m : MsgType ε)
  | returned (v : α)
  | raisedEos
  | raised (ex : PyEx ε)
deriving DecidableEq, Repr

/-- The retry loop of `BaseProducer.__anext__`, assuming the element is
already READY: a frame is returned; a skip emits `frame-skipped` and retries;
end-of-stream unmounts the element (emitting `element-null`) before
propagating; any other exception emits `element-error` and re-raises. -/
def anextLoop {α ε : Type} (el : Elem ε) : List (Pull α ε) → List (Event α ε) × Elem ε
  | [] => ([], el)
  | Pull.frame v :: _ => ([Event.returned v], el)
  | Pull.skip :: rest =>
      let (evs, el') := anextLoop el rest
      (Event.msg MsgType.frameSkipped :: evs, el')
  | Pull.eos :: _ =>
      let (el', msgs, _) := unmount el none
      (msgs.map Event.msg ++ [Event.raisedEos], el')
  | Pull.err ex :: _ =>
      ([Event.msg (MsgType.elementError (PyEx.user ex)), Event.raised (PyEx.user ex)], el)

/-- `BaseProducer.__anext__`: mounts on demand (a mount failure is reported
as `element-error` and re-raised), then runs the retry loop. -/
def anext {α ε : Type} (el : Elem ε) (setup : Option ε) (pulls : List (Pull α ε)) :
    List (Event α ε) × Elem ε :=
  if el.state = ElementState.ready then anextLoop el pulls
  else
    match mount el setup with
    | (el', msgs, MountRes.ok) =>
        let (evs, el'') := anextLoop el' pulls
        (msgs.map Event.msg ++ evs, el'')
    | (el', msgs, MountRes.raised ex) =>
        (msgs.map Event.msg ++ [Event.msg (MsgType.elementError ex), Event.raised ex], el')

/-- The retry loop of `BaseConsumer.consume_frame`: only the skip signal is
caught (emitting `frame-skipped` and retrying); frames are returned and every
other exception propagates untouched. -/
def consumeLoop {α ε : Type} (el : Elem ε) : List (Pull α ε) → List (Event α ε) × Elem ε
  | [] => ([], el)
  | Pull.frame v :: _ => ([Event.returned v], el)
  | Pull.skip :: rest =>
      let (evs, el') := consumeLoop el rest
      (Event.msg MsgType.frameSkipped :: evs, el')
  | Pull.eos :: _ => ([Event.raisedEos], el)
  | Pull.err ex :: _ => ([Event.raised (PyEx.user ex)], el)

/-- `BaseConsumer.consume_frame`: raises `RuntimeError` unless the consumer
is READY, then retries the upstream pull absorbing skip signals. -/
def consumeFrame {α ε : Type} (el : Elem ε) (pulls : List (Pull α ε)) :
    List (Event α ε) × Elem ε :=
  if el.state = ElementState.ready then consumeLoop el pulls
  else ([Event.raised PyEx.runtime], el)

/-!
## Sized-chunks constructor (chunks.py, `BaseSizedChunksProducer.__init__`)

`self._min_size = max(min_size, 1)` and
`self._max_size = max(self._min_size, max_size)`, with no validation that can
reject the arguments.
-/

/-- `BaseSizedChunksProducer.__init__`: the normalized
`(_min_size, _max_size)` pair. -/
def sizedChunksInit (min_size max_size : ℤ) : ℤ × ℤ :=
  let m := max min_size 1
  (m, max m max_size)

/-!
## Chunk-buffer family (chunks.py)

All chunk producers share a buffer (`_buffer`, an accumulating sequence) and
an `_open_buffer` flag, fed through `push_frame` and drained through
`_next_chunk`.  A lifetime of such a producer is a list of events: `push s`
(a frame arrives from upstream), `close` (`push_frame` observed
end-of-stream), `emit c` (`_next_chunk` returned the chunk `c`) and `eosSig`
(`_next_chunk` raised `StopAsyncIteration`).  A step function per subclass
says which events are enabled in which buffer state (`none` = the event
cannot happen there: either `push_frame` raises because the stream is
finished, or `_next_chunk` would skip/return something else).  The skip
signal changes no state and is not recorded.
-/

inductive ChunkEv (α : Type) : Type
  | push (s : List α)
  | close
  | emit (c : List α)
  | eosSig
deriving DecidableEq, Repr

structure BufSt (α : Type) : Type where
  buf : List α
  opn : Bool
deriving DecidableEq, Repr

/-- Run a chunk-producer step function over a list of events. -/
def chunkRun {α : Type} (f : BufSt α → ChunkEv α → Option (BufSt α)) :
    BufSt α → List (ChunkEv α) → Option (BufSt α)
  | st, [] => some st
  | st, ev :: rest =>
      match f st ev with
      | none => none
      | some st' => chunkRun f st' rest

/-- The chunks emitted along a trace, in order. -/
def emittedChunks {α : Type} (tr : List (ChunkEv α)) : List (List α) :=
  tr.filterMap fun ev =>
    match ev with
    | ChunkEv.emit c => some c
    | _ => none

/-- The concatenation of all data pushed along a trace. -/
def pushedData {α : Type} (tr : List (ChunkEv α)) : List α :=
  (tr.filterMap fun ev =>
    match ev with
    | ChunkEv.push s => some s
    | _ => none).flatten

/-- `BaseSizedChunksProducer._next_chunk` together with
`BaseDataChunkProducer.push_frame`: pushing appends to the open buffer
(raising once closed); `_next_chunk` skips while the buffered length is below
`_min_size` and the stream is open, raises `StopAsyncIteration` once the
buffer is empty and closed, and otherwise emits `_buffer[:_max_size]`,
left-trimming the buffer by the emitted length. -/
def sizedStep {α : Type} [DecidableEq α] (m M : ℕ) (st : BufSt α) :
    ChunkEv α → Option (BufSt α)
  | ChunkEv.push s => if st.opn then some { st with buf := st.buf ++ s } else none
  | ChunkEv.close => if st.opn then some { st with opn := false } else none
  | ChunkEv.emit c =>
      if st.buf.length < m ∧ st.opn then none
      else if st.buf.length = 0 ∧ st.opn = false then none
      else if c = st.buf.take M then some { st with buf := st.buf.drop M } else none
  | ChunkEv.eosSig =>
      if st.buf.length < m ∧ st.opn then none
      else if st.buf.length = 0 ∧ st.opn = false then some st
      else none

/-- Boolean prefix test (Python `s.startswith`, used to locate a separator
occurrence). -/
def isPrefixB {α : Type} [DecidableEq α] : List α → List α → Bool
  | [], _ => true
  | _ :: _, [] => false
  | a :: s, b :: t => if a = b then isPrefixB s t else false

/-- Python `buffer.split(separator, 1)` restricted to the case used by the
code: returns `some (left, right)` when the separator occurs in the buffer,
splitting at the leftmost occurrence (`left` excludes the separator), and
`none` when it does not occur. -/
def splitOnce {α : Type} [DecidableEq α] (sep : List α) : List α → Option (List α × List α)
  | [] => if isPrefixB sep [] then some ([], []) else none
  | a :: rest =>
      if isPrefixB sep (a :: rest) then some ([], (a :: rest).drop sep.length)
      else
        match splitOnce sep rest with
        | none => none
        | some (l, r) => some (a :: l, r)

/-- `BaseChunksSeparatorProducer._next_chunk` together with `push_frame`:
when the separator occurs in the buffer, emits the part up to and including
the first occurrence and retains the remainder; when it does not, skips while
the stream is open, emits the non-empty leftover once after closure, and
raises `StopAsyncIteration` on an empty closed buffer. -/
def sepStep {α : Type} [DecidableEq α] (sep : List α) (st : BufSt α) :
    ChunkEv α → Option (BufSt α)
  | ChunkEv.push s => if st.opn then some { st with buf := st.buf ++ s } else none
  | ChunkEv.close => if st.opn then some { st with opn := false } else none
  | ChunkEv.emit c =>
      match splitOnce sep st.buf with
      | some (l, r) => if c = l ++ sep then some { st with buf := r } else none
      | none =>
          if st.opn then none
          else if st.buf.length ≠ 0 ∧ c = st.buf then some { st with buf := [] } else none
  | ChunkEv.eosSig =>
      match splitOnce sep st.buf with
      | some _ => none
      | none => if st.opn = false ∧ st.buf.length = 0 then some st else none

/-!
## Slow-start chunk sizing (chunks.py, `BaseChunksSlowStartProducer`)

`_calculate_chunk_size` mutates `_min_size` based on whether the previous
chunk was produced within `_interval` seconds; the timing test
`(datetime.now() - self._last_dt).total_seconds() < self._interval` is
abstracted as a Boolean input `fast`, and `_last_dt is None` as the Boolean
field `lastDt` (`false` = `None`).  Sizes are integers and the multiplier a
rational; Python's `round` is round-half-to-even.
-/

/-- Python `round()` (round-half-to-even) on a rational, yielding an
integer. -/
def pyround (q : ℚ) : ℤ :=
  if q - ⌊q⌋ < 1 / 2 then ⌊q⌋
  else if 1 / 2 < q - ⌊q⌋ then ⌊q⌋ + 1
  else if Even ⌊q⌋ then ⌊q⌋ else ⌊q⌋ + 1

structure SlowSt : Type where
  minSize : ℤ
  maxSize : ℤ
  initialMinSize : ℤ
  multiplier : ℚ
  lastDt : Bool
deriving DecidableEq, Repr

/-- `BaseChunksSlowStartProducer.__init__` composed with the sized-chunks
constructor: `_min_size`/`_max_size` normalized as in `sizedChunksInit`, the
multiplier clamped to at least 1, `_initial_min_size = _min_size`, and
`_last_dt = None`. -/
def slowStartInit (min_size max_size : ℤ) (multiplier : ℚ) : SlowSt :=
  { minSize := (sizedChunksInit min_size max_size).1,
    maxSize := (sizedChunksInit min_size max_size).2,
    initialMinSize := (sizedChunksInit min_size max_size).1,
    multiplier := max multiplier 1,
    lastDt := false }

/-- `BaseChunksSlowStartProducer._calculate_chunk_size`: on the first call
the running min size is reset to the initial min size; afterwards it is
multiplied by the multiplier when the call was fast and the size is still
below `_max_size`, divided by the multiplier when the size exceeds the
initial min size, and always clamped to
`[_initial_min_size, _max_size]`. -/
def calculateChunkSize (st : SlowSt) (fast : Bool) : SlowSt :=
  if st.lastDt = false then
    { st with minSize := st.initialMinSize, lastDt := true }
  else
    let m :=
      if fast = true ∧ st.minSize < st.maxSize then
        pyround ((st.minSize : ℚ) * st.multiplier)
      else if st.initialMinSize < st.minSize then
        pyround ((st.minSize : ℚ) / st.multiplier)
      else st.minSize
    { st with minSize := max (min m st.maxSize) st.initialMinSize, lastDt := true }

/-- The constructor invariant of a slow-start producer:
`1 ≤ initialMinSize ≤ minSize ≤ maxSize` and `1 ≤ multiplier`. -/
def SlowInv (st : SlowSt) : Prop :=
  1 ≤ st.initialMinSize ∧ st.initialMinSize ≤ st.minSize ∧
    st.minSize ≤ st.maxSize ∧ 1 ≤ st.multiplier

/-!
## Generic step runner

The fan-out/fan-in combinators are modelled as small-step systems: a step
function `σ → ι → Option σ` says whether action `ι` is enabled in a state
and what the next state is; a schedule is a list of actions.  Suspension
points of the Python coroutines delimit the atomic steps.
-/

/-- Run a step function over a list of actions, failing if an action is not
enabled. -/
def runSteps {σ ι : Type} (f : σ → ι → Option σ) : σ → List ι → Option σ
  | st, [] => some st
  | st, a :: rest =>
      match f st a with
      | none => none
      | some st' => runSteps f st' rest

/-!
## Tee (primitives.py, `Tee` and `_InnerTeeProducer`)

Each attached output is an `_InnerTeeProducer`; its pull calls
`Tee.request_frame`, which registers a future for the output and — once
every attached output has a pending future — pulls the shared upstream once
(`Tee.consume_frame`), delivering that single frame to every pending future
simultaneously.  On upstream end-of-stream, every output is removed and its
pending future fails with end-of-stream.

The model indexes the attached outputs `0 .. n-1`.  A consumer is `idle`
(not currently pulling), `pending` (future registered), `got v` (future
resolved with frame `v`, value not yet returned to the output's consumer) or
`done` (end-of-stream delivered).  `obs` records the frames the output has
observed.  Actions: `request i` (output `i` registers its future), `pull`
(the upstream is pulled once all outputs are pending: the gate
`len(set(self._futs.keys()) & self._consumers) == len(self._consumers)`),
and `collect i` (output `i` returns the resolved frame to its consumer).
-/

inductive TPhase (α : Type) : Type
  | idle
  | pending
  | got (v : α)
  | done
deriving DecidableEq, Repr

structure TeeCons (α : Type) : Type where
  phase : TPhase α
  obs : List α
deriving DecidableEq, Repr

structure TeeSt (α : Type) : Type where
  pos : ℕ
  cons : List (TeeCons α)
deriving DecidableEq, Repr

inductive TeeAct : Type
  | request (i : ℕ)
  | pull
  | collect (i : ℕ)
deriving DecidableEq, Repr

def teeInit (α : Type) (n : ℕ) : TeeSt α :=
  ⟨0, List.replicate n ⟨TPhase.idle, []⟩⟩

/-- One atomic step of the Tee combinator over upstream `up`. -/
def teeStep {α : Type} [DecidableEq α] (up : List α) (st : TeeSt α) :
    TeeAct → Option (TeeSt α)
  | TeeAct.request i =>
      match st.cons[i]? with
      | none => none
      | some c =>
          if c.phase = TPhase.idle then
            some { st with cons := st.cons.set i { c with phase := TPhase.pending } }
          else none
  | TeeAct.pull =>
      if st.cons ≠ [] ∧ ∀ c ∈ st.cons, c.phase = TPhase.pending then
        match up[st.pos]? with
        | some v =>
            some { pos := st.pos + 1,
                   cons := st.cons.map fun c => { c with phase := TPhase.got v } }
        | none =>
            some { st with cons := st.cons.map fun c => { c with phase := TPhase.done } }
      else none
  | TeeAct.collect i =>
      match st.cons[i]? with
      | none => none
      | some c =>
          match c.phase with
          | TPhase.got v =>
              some { st with cons := st.cons.set i ⟨TPhase.idle, c.obs ++ [v]⟩ }
          | _ => none

/-- The safety invariant of the Tee model: every output has observed exactly
the first `pos` upstream frames (the resolved-but-uncollected frame
included), and a finished output has observed the whole upstream. -/
def TeeInv {α : Type} (up : List α) (st : TeeSt α) : Prop :=
  st.pos ≤ up.length ∧
  ∀ c ∈ st.cons,
    (c.phase = TPhase.done → c.obs = up ∧ st.pos = up.length) ∧
    (∀ v, c.phase = TPhase.got v → c.obs ++ [v] = up.take st.pos) ∧
    (c.phase = TPhase.idle ∨ c.phase = TPhase.pending → c.obs = up.take st.pos)

/-!
## Branch (primitives.py, `Branch` and `_InnerBranchProducer`)

Like Tee, but each pulled frame is delivered to exactly one branch: the one
whose key `branch_func(frame)` classifies it to (`consume_frame` pops that
key's future and resolves it).  A frame classifying to an unregistered key
with no `on_unknown_branch` callback is dropped and the dispatch loop pulls
again.  The model registers branches under keys `0 .. n-1` (branch `i` is
the inner producer for key `i`) and reuses the Tee consumer states.  The
upstream pull happens inside `request_frame` once every registered key has a
pending future (`len(set(self._branches.keys()) & set(self._futs.keys())) ==
len(self._branches)`).
-/

/-- One atomic step of the Branch combinator with classifier `f` over
upstream `up`. -/
def branchStep {α : Type} [DecidableEq α] (f : α → ℕ) (up : List α) (st : TeeSt α) :
    TeeAct → Option (TeeSt α)
  | TeeAct.request i =>
      match st.cons[i]? with
      | none => none
      | some c =>
          if c.phase = TPhase.idle then
            some { st with cons := st.cons.set i { c with phase := TPhase.pending } }
          else none
  | TeeAct.pull =>
      if st.cons ≠ [] ∧ ∀ c ∈ st.cons, c.phase = TPhase.pending then
        match up[st.pos]? with
        | some v =>
            match st.cons[f v]? with
            | some c =>
                if c.phase = TPhase.pending then
                  some { pos := st.pos + 1,
                         cons := st.cons.set (f v) { c with phase := TPhase.got v } }
                else none
            | none => some { st with pos := st.pos + 1 }
        | none =>
            some { st with cons := st.cons.map fun c => { c with phase := TPhase.done } }
      else none
  | TeeAct.collect i =>
      match st.cons[i]? with
      | none => none
      | some c =>
          match c.phase with
          | TPhase.got v =>
              some { st with cons := st.cons.set i ⟨TPhase.idle, c.obs ++ [v]⟩ }
          | _ => none

/-- The frames of `l` that the classifier `f` routes to key `i`, in order. -/
def keyFilter {α : Type} (f : α → ℕ) (i : ℕ) (l : List α) : List α :=
  l.filter fun v => f v == i

/-- The safety invariant of the Branch model: branch `i` has observed
exactly the frames among the first `pos` upstream frames whose key is
`i`. -/
def BrInv {α : Type} (f : α → ℕ) (up : List α) (st : TeeSt α) : Prop :=
  st.pos ≤ up.length ∧
  ∀ (i : ℕ) (c : TeeCons α), st.cons[i]? = some c →
    (c.phase = TPhase.done → c.obs = keyFilter f i up ∧ st.pos = up.length) ∧
    (∀ v, c.phase = TPhase.got v →
        f v = i ∧ c.obs ++ [v] = keyFilter f i (up.take st.pos)) ∧
    (c.phase = TPhase.idle ∨ c.phase = TPhase.pending →
        c.obs = keyFilter f i (up.take st.pos))

/-!
## Cache (primitives.py, `Cache` and `CacheBridge`)

`Cache` keeps an append-only ledger `_cached_data` of produced frames with a
stored `StopAsyncIteration` as the terminal entry, and a single in-flight
marker `_next_fut`.  Each independent replay consumer iterates a
`CacheBridge`, calling `get_cached_item(idx)` for `idx = 0, 1, ...`:
a present entry is returned (or its stored end-of-stream raised); on a miss,
if no fetch is in flight the consumer performs exactly one upstream pull
(appending the outcome to the ledger) and then releases the waiters,
otherwise it waits for the in-flight fetch.

The model runs `n` replay consumers.  A consumer is `running` (at the top of
the `get_cached_item` loop), `fetching` (holds `_next_fut` and is awaiting
the upstream pull), `waiting t` (awaiting a `_next_fut` created when `t`
fetches had completed; it wakes once `completed > t`) or `done`
(end-of-stream delivered).  The only scheduler action is the index of the
consumer to run next; each consumer has at most one enabled transition.
-/

inductive Entry (α : Type) : Type
  | val (v : α)
  | eos
deriving DecidableEq, Repr

inductive CPhase : Type
  | running
  | fetching
  | waiting (t : ℕ)
  | done
deriving DecidableEq, Repr

structure CacheCons (α : Type) : Type where
  idx : ℕ
  obs : List α
  phase : CPhase
deriving DecidableEq, Repr

structure CacheSt (α : Type) : Type where
  pos : ℕ
  ledger : List (Entry α)
  inFlight : Bool
  completed : ℕ
  cons : List (CacheCons α)
deriving DecidableEq, Repr

def cacheInit (α : Type) (n : ℕ) : CacheSt α :=
  ⟨0, [], false, 0, List.replicate n ⟨0, [], CPhase.running⟩⟩

/-- The values stored in a ledger, in order (the terminal end-of-stream
entry carries no value). -/
def ledgerVals {α : Type} (l : List (Entry α)) : List α :=
  l.filterMap fun e =>
    match e with
    | Entry.val v => some v
    | Entry.eos => none

/-- One atomic step of consumer `i` of the Cache model: the atomic regions
of `Cache.get_cached_item` / `CacheBridge._consume_frame` between
suspension points. -/
def cacheStep {α : Type} [DecidableEq α] (up : List α) (st : CacheSt α) (i : ℕ) :
    Option (CacheSt α) :=
  match st.cons[i]? with
  | none => none
  | some c =>
      match c.phase with
      | CPhase.done => none
      | CPhase.waiting t =>
          if t < st.completed then
            some { st with cons := st.cons.set i { c with phase := CPhase.running } }
          else none
      | CPhase.fetching =>
          match up[st.pos]? with
          | some v =>
              some { st with
                      pos := st.pos + 1,
                      ledger := st.ledger ++ [Entry.val v],
                      inFlight := false,
                      completed := st.completed + 1,
                      cons := st.cons.set i { c with phase := CPhase.running } }
          | none =>
              some { st with
                      ledger := st.ledger ++ [Entry.eos],
                      inFlight := false,
                      completed := st.completed + 1,
                      cons := st.cons.set i { c with phase := CPhase.running } }
      | CPhase.running =>
          match st.ledger[c.idx]? with
          | some (Entry.val v) =>
              some { st with cons := st.cons.set i ⟨c.idx + 1, c.obs ++ [v], CPhase.running⟩ }
          | some Entry.eos =>
              some { st with cons := st.cons.set i { c with phase := CPhase.done } }
          | none =>
              if st.ledger.getLast? = some Entry.eos then
                some { st with cons := st.cons.set i { c with phase := CPhase.done } }
              else if st.inFlight then
                some { st with cons := st.cons.set i { c with phase := CPhase.waiting st.completed } }
              else
                some { st with
                        inFlight := true,
                        cons := st.cons.set i { c with phase := CPhase.fetching } }

/-- The safety invariant of the Cache model. -/
def CInv {α : Type} (up : List α) (st : CacheSt α) : Prop :=
  st.pos ≤ up.length ∧
  ledgerVals st.ledger = up.take st.pos ∧
  (∀ j : ℕ, st.ledger[j]? = some Entry.eos → j + 1 = st.ledger.length) ∧
  (Entry.eos ∈ st.ledger → st.pos = up.length) ∧
  (st.inFlight = true → Entry.eos ∉ st.ledger) ∧
  (∀ (i j : ℕ) (ci cj : CacheCons α), st.cons[i]? = some ci → st.cons[j]? = some cj →
      ci.phase = CPhase.fetching → cj.phase = CPhase.fetching → i = j) ∧
  (∀ (i : ℕ) (ci : CacheCons α), st.cons[i]? = some ci →
      ci.phase = CPhase.fetching → st.inFlight = true) ∧
  ∀ c ∈ st.cons,
    (c.phase = CPhase.done → c.obs = up) ∧
    (c.phase ≠ CPhase.done →
        c.idx ≤ st.ledger.length ∧ c.obs = ledgerVals (st.ledger.take c.idx))

/-- A concrete fair schedule for the Cache model: at each of `fuel` rounds,
run the first consumer (in a rotating order) that has an enabled step;
returns the list of chosen consumer indices. -/
def rrActs {α : Type} [DecidableEq α] (up : List α) : ℕ → CacheSt α → List ℕ
  | 0, _ => []
  | fuel + 1, st =>
      match ((List.range st.cons.length).rotate fuel).findSome?
          (fun i => (cacheStep up st i).map fun st' => (i, st')) with
      | none => []
      | some (i, st') => i :: rrActs up fuel st'

/-!
## Theorems: element lifecycle and pull protocol
-/

theorem anextLoop_replicate_skip {α ε : Type} (el : Elem ε) (k : ℕ)
    (pulls : List (Pull α ε)) :
    anextLoop el (List.replicate k Pull.skip ++ pulls) =
      (List.replicate k (Event.msg MsgType.frameSkipped) ++ (anextLoop el pulls).1,
       (anextLoop el pulls).2) := by
  induction k with
  | zero => simp
  | succ n ih => simp [List.replicate_succ, anextLoop, ih]

theorem consumeLoop_replicate_skip {α ε : Type} (el : Elem ε) (k : ℕ)
    (pulls : List (Pull α ε)) :
    consumeLoop el (List.replicate k Pull.skip ++ pulls) =
      (List.replicate k (Event.msg MsgType.frameSkipped) ++ (consumeLoop el pulls).1,
       (consumeLoop el pulls).2) := by
  induction k with
  | zero => simp
  | succ n ih => simp [List.replicate_succ, consumeLoop, ih]

/-- Claim C8: calling `mount` on an element that is already READY is a no-op
(state, `lastError` and bus traffic unchanged); calling `unmount` on an
element that is already NULL is a no-op; and calling `mount` on an element in
ERROR state fails immediately (raising `RuntimeError`) without changing the
state and without emitting any message. -/
theorem mount_unmount_idempotent {ε : Type} (el : Elem ε) (setup teardown : Option ε) :
    (el.state = ElementState.ready → mount el setup = (el, [], MountRes.ok)) ∧
    (el.state = ElementState.null → unmount el teardown = (el, [], MountRes.ok)) ∧
    (el.state = ElementState.error →
      mount el setup = (el, [], MountRes.raised PyEx.runtime)) := by
  refine ⟨fun h => ?_, fun h => ?_, fun h => ?_⟩
  · simp [mount, h]
  · simp [unmount, h]
  · simp [mount, h]

/-- Witness for C8: the three no-op/failure cases evaluated on concrete
elements. -/
theorem mount_unmount_idempotent_witness :
    mount (ε := ℕ) ⟨ElementState.ready, none⟩ none =
      (⟨ElementState.ready, none⟩, [], MountRes.ok) ∧
    unmount (ε := ℕ) ⟨ElementState.null, none⟩ none =
      (⟨ElementState.null, none⟩, [], MountRes.ok) ∧
    mount (ε := ℕ) ⟨ElementState.error, some (PyEx.user 3)⟩ none =
      (⟨ElementState.error, some (PyEx.user 3)⟩, [], MountRes.raised PyEx.runtime) :=
  ⟨(mount_unmount_idempotent ⟨ElementState.ready, none⟩ none none).1 rfl,
   (mount_unmount_idempotent ⟨ElementState.null, none⟩ none none).2.1 rfl,
   (mount_unmount_idempotent ⟨ElementState.error, some (PyEx.user 3)⟩ none none).2.2 rfl⟩

/-- Claim C3 counterexample: pulling from a READY producer whose subclass
logic raises a fatal exception leaves the element READY with `lastError`
unset — `BaseProducer.__anext__` never calls `_set_error`, so the element is
not driven to ERROR as the claim states. -/
theorem producer_fatal_error_no_error_state :
    (anext (α := ℕ) (ε := ℕ) ⟨ElementState.ready, none⟩ none [Pull.err 7]).2 =
      ⟨ElementState.ready, none⟩ ∧
    ElementState.ready ≠ ElementState.error := by
  exact ⟨rfl, by decide⟩

/-- Claim C3 (amended): when a pull via `Producer.next()` on a READY element
fails with any exception other than end-of-stream or skip, an `element-error`
bus message is emitted and the exception is re-raised synchronously to the
caller; the element itself is left unchanged — it stays READY and its
`lastError` is not set by this path. -/
theorem producer_fatal_error_emits_and_reraises {α ε : Type} (el : Elem ε)
    (setup : Option ε) (ex : ε) (rest : List (Pull α ε))
    (h : el.state = ElementState.ready) :
    anext el setup (Pull.err ex :: rest) =
      ([Event.msg (MsgType.elementError (PyEx.user ex)), Event.raised (PyEx.user ex)],
       el) := by
  simp [anext, h, anextLoop]

/-- Witness for C3 (amended): a READY element with a failing pull. -/
theorem producer_fatal_error_emits_and_reraises_witness :
    anext (α := ℕ) (ε := ℕ) ⟨ElementState.ready, none⟩ none [Pull.err 7] =
      ([Event.msg (MsgType.elementError (PyEx.user 7)), Event.raised (PyEx.user 7)],
       ⟨ElementState.ready, none⟩) :=
  producer_fatal_error_emits_and_reraises ⟨ElementState.ready, none⟩ none 7 [] rfl

/-- Claim C9: a skip signal raised by subclass logic is never surfaced to the
caller of `next()`/`consumeFrame()`: each skip emits a `frame-skipped` bus
message and the pull is retried internally until a real frame (returned) or
end-of-stream results; on end-of-stream the producer unmounts itself
(emitting `element-null` and reaching state NULL) before propagating
end-of-stream to its caller. -/
theorem skip_never_surfaced {α ε : Type} (el : Elem ε) (setup : Option ε) (k : ℕ)
    (v : α) (rest : List (Pull α ε)) (h : el.state = ElementState.ready) :
    anext el setup (List.replicate k Pull.skip ++ Pull.frame v :: rest) =
      (List.replicate k (Event.msg MsgType.frameSkipped) ++ [Event.returned v], el) ∧
    anext el setup (List.replicate k Pull.skip ++ Pull.eos :: rest) =
      (List.replicate k (Event.msg MsgType.frameSkipped) ++
        [Event.msg MsgType.elementNull, Event.raisedEos],
       { el with state := ElementState.null }) ∧
    consumeFrame el (List.replicate k Pull.skip ++ Pull.frame v :: rest) =
      (List.replicate k (Event.msg MsgType.frameSkipped) ++ [Event.returned v], el) := by
  refine ⟨?_, ?_, ?_⟩
  · simp [anext, h, anextLoop_replicate_skip, anextLoop]
  · simp [anext, h, anextLoop_replicate_skip, anextLoop, unmount]
  · simp [consumeFrame, h, consumeLoop_replicate_skip, consumeLoop]

/-- Witness for C9: two skips followed by a frame, and two skips followed by
end-of-stream, on a concrete READY element. -/
theorem skip_never_surfaced_witness :
    anext (ε := ℕ) ⟨ElementState.ready, none⟩ none
        (List.replicate 2 Pull.skip ++ Pull.frame 5 :: []) =
      (List.replicate 2 (Event.msg MsgType.frameSkipped) ++ [Event.returned 5],
       ⟨ElementState.ready, none⟩) ∧
    anext (α := ℕ) (ε := ℕ) ⟨ElementState.ready, none⟩ none
        (List.replicate 2 Pull.skip ++ Pull.eos :: []) =
      (List.replicate 2 (Event.msg MsgType.frameSkipped) ++
        [Event.msg MsgType.elementNull, Event.raisedEos],
       ⟨ElementState.null, none⟩) :=
  ⟨(skip_never_surfaced ⟨ElementState.ready, none⟩ none 2 5 [] rfl).1,
   (skip_never_surfaced (α := ℕ) ⟨ElementState.ready, none⟩ none 2 5 [] rfl).2.1⟩

/-!
## Theorems: chunk-buffer family
-/

theorem emittedChunks_nil {α : Type} : emittedChunks ([] : List (ChunkEv α)) = [] := rfl

theorem emittedChunks_push {α : Type} (s : List α) (tr : List (ChunkEv α)) :
    emittedChunks (ChunkEv.push s :: tr) = emittedChunks tr := rfl

theorem emittedChunks_close {α : Type} (tr : List (ChunkEv α)) :
    emittedChunks (ChunkEv.close :: tr) = emittedChunks tr := rfl

theorem emittedChunks_emit {α : Type} (c : List α) (tr : List (ChunkEv α)) :
    emittedChunks (ChunkEv.emit c :: tr) = c :: emittedChunks tr := rfl

theorem emittedChunks_eos {α : Type} (tr : List (ChunkEv α)) :
    emittedChunks (ChunkEv.eosSig :: tr) = emittedChunks tr := rfl

theorem pushedData_nil {α : Type} : pushedData ([] : List (ChunkEv α)) = [] := rfl

theorem pushedData_push {α : Type} (s : List α) (tr : List (ChunkEv α)) :
    pushedData (ChunkEv.push s :: tr) = s ++ pushedData tr := rfl

theorem pushedData_close {α : Type} (tr : List (ChunkEv α)) :
    pushedData (ChunkEv.close :: tr) = pushedData tr := rfl

theorem pushedData_emit {α : Type} (c : List α) (tr : List (ChunkEv α)) :
    pushedData (ChunkEv.emit c :: tr) = pushedData tr := rfl

theorem pushedData_eos {α : Type} (tr : List (ChunkEv α)) :
    pushedData (ChunkEv.eosSig :: tr) = pushedData tr := rfl

theorem chunkRun_cons_eq {α : Type} {f : BufSt α → ChunkEv α → Option (BufSt α)}
    {st st' : BufSt α} {ev : ChunkEv α} {rest : List (ChunkEv α)}
    (h : chunkRun f st (ev :: rest) = some st') :
    ∃ s₁, f st ev = some s₁ ∧ chunkRun f s₁ rest = some st' := by
  simp only [chunkRun] at h
  cases hf : f st ev with
  | none => rw [hf] at h; cases h
  | some s₁ => rw [hf] at h; exact ⟨s₁, rfl, h⟩

theorem chunkRun_append {α : Type} (f : BufSt α → ChunkEv α → Option (BufSt α))
    (st : BufSt α) (l₁ l₂ : List (ChunkEv α)) :
    chunkRun f st (l₁ ++ l₂) = (chunkRun f st l₁).bind fun s => chunkRun f s l₂ := by
  induction l₁ generalizing st with
  | nil => simp [chunkRun]
  | cons ev rest ih =>
      simp only [List.cons_append, chunkRun]
      cases f st ev with
      | none => simp
      | some st' => simp [ih]

theorem sizedStep_push_eq {α : Type} [DecidableEq α] {m M : ℕ} {st s₁ : BufSt α}
    {s : List α} (h : sizedStep m M st (ChunkEv.push s) = some s₁) :
    st.opn = true ∧ s₁ = { st with buf := st.buf ++ s } := by
  simp only [sizedStep] at h
  split at h
  · next hc => injection h with h; exact ⟨hc, h.symm⟩
  · cases h

theorem sizedStep_close_eq {α : Type} [DecidableEq α] {m M : ℕ} {st s₁ : BufSt α}
    (h : sizedStep m M st ChunkEv.close = some s₁) :
    st.opn = true ∧ s₁ = { st with opn := false } := by
  simp only [sizedStep] at h
  split at h
  · next hc => injection h with h; exact ⟨hc, h.symm⟩
  · cases h

theorem sizedStep_emit_eq {α : Type} [DecidableEq α] {m M : ℕ} {st s₁ : BufSt α}
    {c : List α} (h : sizedStep m M st (ChunkEv.emit c) = some s₁) :
    c = st.buf.take M ∧ s₁ = { st with buf := st.buf.drop M } ∧
      ¬(st.buf.length < m ∧ st.opn = true) ∧
      ¬(st.buf.length = 0 ∧ st.opn = false) := by
  simp only [sizedStep] at h
  split at h
  · cases h
  · next h₁ =>
      split at h
      · cases h
      · next h₂ =>
          split at h
          · next h₃ => injection h with h; exact ⟨h₃, h.symm, h₁, h₂⟩
          · cases h

theorem sizedStep_eos_eq {α : Type} [DecidableEq α] {m M : ℕ} {st s₁ : BufSt α}
    (h : sizedStep m M st ChunkEv.eosSig = some s₁) :
    st.buf = [] ∧ st.opn = false ∧ s₁ = st := by
  simp only [sizedStep] at h
  split at h
  · cases h
  · split at h
    · next h₂ =>
        injection h with h
        exact ⟨List.length_eq_zero.mp h₂.1, h₂.2, h.symm⟩
    · cases h

theorem sized_run_emit_le {α : Type} [DecidableEq α] (m M : ℕ) :
    ∀ (tr : List (ChunkEv α)) (st st' : BufSt α),
      chunkRun (sizedStep m M) st tr = some st' →
      ∀ c ∈ emittedChunks tr, c.length ≤ M := by
  intro tr
  induction tr with
  | nil => intro st st' _ c hc; simp [emittedChunks_nil] at hc
  | cons ev rest ih =>
      intro st st' h c hc
      obtain ⟨s₁, hstep, hrun⟩ := chunkRun_cons_eq h
      cases ev with
      | push s => exact ih s₁ st' hrun c (by rwa [emittedChunks_push] at hc)
      | close => exact ih s₁ st' hrun c (by rwa [emittedChunks_close] at hc)
      | eosSig => exact ih s₁ st' hrun c (by rwa [emittedChunks_eos] at hc)
      | emit c₀ =>
          rw [emittedChunks_emit] at hc
          rcases List.mem_cons.mp hc with hceq | hmem
          · obtain ⟨hc₀, -, -, -⟩ := sizedStep_emit_eq hstep
            subst hceq; rw [hc₀]
            simp [Nat.min_le_left]
          · exact ih s₁ st' hrun c hmem

theorem sized_closed_empty_run {α : Type} [DecidableEq α] (m M : ℕ) :
    ∀ (tr : List (ChunkEv α)) (st' : BufSt α),
      chunkRun (sizedStep m M) ⟨[], false⟩ tr = some st' →
      emittedChunks tr = [] ∧ st' = ⟨[], false⟩ := by
  intro tr
  induction tr with
  | nil => intro st' h; injection h with h; exact ⟨rfl, h.symm⟩
  | cons ev rest ih =>
      intro st' h
      obtain ⟨s₁, hstep, hrun⟩ := chunkRun_cons_eq h
      cases ev with
      | push s => simp [sizedStep] at hstep
      | close => simp [sizedStep] at hstep
      | emit c => simp [sizedStep] at hstep
      | eosSig =>
          obtain ⟨-, -, hs⟩ := sizedStep_eos_eq hstep
          subst hs
          obtain ⟨h1, h2⟩ := ih st' hrun
          exact ⟨by rw [emittedChunks_eos, h1], h2⟩

/-- Claim C4: for every sequence of pushed chunks, a sized-chunks producer
with `minSize = m` and `maxSize = M` (normalized so `1 ≤ m ≤ M`) never emits
a chunk longer than `M`; any emitted chunk shorter than `m` can only occur
once the stream is closed, and after it the buffer is empty so no further
chunk is ever emitted (it is the final chunk of a closed stream); and
end-of-stream is signalled only when the stream is closed and the buffer has
been drained down to empty. -/
theorem sized_chunks_bounds {α : Type} [DecidableEq α] (m M : ℕ)
    (h1 : 1 ≤ m) (hmM : m ≤ M) :
    (∀ (tr : List (ChunkEv α)) (st' : BufSt α),
        chunkRun (sizedStep m M) ⟨[], true⟩ tr = some st' →
        ∀ c ∈ emittedChunks tr, c.length ≤ M) ∧
    (∀ (tr₁ : List (ChunkEv α)) (c : List α) (tr₂ : List (ChunkEv α)) (st' : BufSt α),
        chunkRun (sizedStep m M) ⟨[], true⟩ (tr₁ ++ ChunkEv.emit c :: tr₂) = some st' →
        c.length < m →
        (∃ s₁, chunkRun (sizedStep m M) ⟨[], true⟩ tr₁ = some s₁ ∧ s₁.opn = false) ∧
        emittedChunks tr₂ = []) ∧
    (∀ (tr₁ tr₂ : List (ChunkEv α)) (st' : BufSt α),
        chunkRun (sizedStep m M) ⟨[], true⟩ (tr₁ ++ ChunkEv.eosSig :: tr₂) = some st' →
        ∃ s₁, chunkRun (sizedStep m M) ⟨[], true⟩ tr₁ = some s₁ ∧
          s₁.buf = [] ∧ s₁.opn = false) := by
  refine ⟨fun tr st' h => sized_run_emit_le m M tr _ st' h, ?_, ?_⟩
  · intro tr₁ c tr₂ st' h hclen
    rw [chunkRun_append] at h
    cases h₁ : chunkRun (sizedStep m M) ⟨[], true⟩ tr₁ with
    | none => rw [h₁] at h; cases h
    | some s₁ =>
        rw [h₁] at h
        simp only [Option.some_bind] at h
        obtain ⟨s₂, hstep, hrun₂⟩ := chunkRun_cons_eq h
        obtain ⟨hc, hs₂, hcond1, -⟩ := sizedStep_emit_eq hstep
        have hlen : c.length = min M s₁.buf.length := by rw [hc]; simp
        have hbuf : s₁.buf.length < m := by omega
        have hopn : s₁.opn = false := by
          cases hop : s₁.opn with
          | false => rfl
          | true => exact absurd ⟨hbuf, hop⟩ hcond1
        have hdrop : s₁.buf.drop M = [] := by
          apply List.drop_eq_nil_of_le; omega
        have hs₂' : s₂ = ⟨[], false⟩ := by
          rw [hs₂, hdrop]
          cases s₁ with
          | mk b o => simp_all
        rw [hs₂'] at hrun₂
        exact ⟨⟨s₁, rfl, hopn⟩, (sized_closed_empty_run m M tr₂ st' hrun₂).1⟩
  · intro tr₁ tr₂ st' h
    rw [chunkRun_append] at h
    cases h₁ : chunkRun (sizedStep m M) ⟨[], true⟩ tr₁ with
    | none => rw [h₁] at h; cases h
    | some s₁ =>
        rw [h₁] at h
        simp only [Option.some_bind] at h
        obtain ⟨s₂, hstep, -⟩ := chunkRun_cons_eq h
        obtain ⟨hb, ho, -⟩ := sizedStep_eos_eq hstep
        exact ⟨s₁, rfl, hb, ho⟩

/-- Witness for C4: `m = 3`, `M = 4`, pushing `[1,2,3,4,5]`, closing, and
draining yields chunks `[1,2,3,4]` and `[5]`, then end-of-stream. -/
theorem sized_chunks_bounds_witness :
    (∀ c ∈ emittedChunks
        [ChunkEv.push [1, 2, 3, 4, 5], ChunkEv.emit [1, 2, 3, 4], ChunkEv.close,
         ChunkEv.emit [5], ChunkEv.eosSig], c.length ≤ 4) ∧
    ((∃ s₁, chunkRun (sizedStep 3 4) ⟨[], true⟩
        [ChunkEv.push [1, 2, 3, 4, 5], ChunkEv.emit [1, 2, 3, 4], ChunkEv.close] =
          some s₁ ∧ s₁.opn = false) ∧
      emittedChunks ([ChunkEv.eosSig] : List (ChunkEv ℕ)) = []) ∧
    (∃ s₁, chunkRun (sizedStep 3 4) ⟨[], true⟩
        [ChunkEv.push [1, 2, 3, 4, 5], ChunkEv.emit [1, 2, 3, 4], ChunkEv.close,
         ChunkEv.emit [5]] = some s₁ ∧ s₁.buf = [] ∧ s₁.opn = false) := by
  have h := sized_chunks_bounds (α := ℕ) 3 4 (by decide) (by decide)
  exact ⟨h.1 _ ⟨[], false⟩ (by decide),
    h.2.1 [ChunkEv.push [1, 2, 3, 4, 5], ChunkEv.emit [1, 2, 3, 4], ChunkEv.close]
      [5] [ChunkEv.eosSig] ⟨[], false⟩ (by decide) (by decide),
    h.2.2 [ChunkEv.push [1, 2, 3, 4, 5], ChunkEv.emit [1, 2, 3, 4], ChunkEv.close,
      ChunkEv.emit [5]] [] ⟨[], false⟩ (by decide)⟩

theorem isPrefixB_eq {α : Type} [DecidableEq α] :
    ∀ (s t : List α), isPrefixB s t = true → t = s ++ t.drop s.length
  | [], t, _ => by simp
  | a :: s, [], h => by simp [isPrefixB] at h
  | a :: s, b :: t, h => by
      simp only [isPrefixB] at h
      split at h
      · next hab =>
          have ih := isPrefixB_eq s t h
          subst hab
          simpa using ih
      · cases h

theorem splitOnce_eq {α : Type} [DecidableEq α] (sep : List α) :
    ∀ (b l r : List α), splitOnce sep b = some (l, r) → b = l ++ sep ++ r
  | [], l, r, h => by
      simp only [splitOnce] at h
      split at h
      · next hp =>
          simp only [Option.some.injEq, Prod.mk.injEq] at h
          obtain ⟨hl, hr⟩ := h
          subst hl; subst hr
          have := isPrefixB_eq sep [] hp
          simpa using this.symm
      · cases h
  | a :: rest, l, r, h => by
      simp only [splitOnce] at h
      split at h
      · next hp =>
          simp only [Option.some.injEq, Prod.mk.injEq] at h
          obtain ⟨hl, hr⟩ := h
          subst hl; subst hr
          simpa using isPrefixB_eq sep (a :: rest) hp
      · cases hsp : splitOnce sep rest with
        | none => rw [hsp] at h; cases h
        | some p =>
            obtain ⟨l', r'⟩ := p
            rw [hsp] at h
            simp only [Option.some.injEq, Prod.mk.injEq] at h
            obtain ⟨hl, hr⟩ := h
            subst hl; subst hr
            have := splitOnce_eq sep rest l' r' hsp
            simp [this]

theorem splitOnce_nil {α : Type} [DecidableEq α] (sep : List α) (hsep : sep ≠ []) :
    splitOnce sep ([] : List α) = none := by
  cases sep with
  | nil => exact absurd rfl hsep
  | cons a s => simp [splitOnce, isPrefixB]

theorem sepStep_push_eq {α : Type} [DecidableEq α] {sep : List α} {st s₁ : BufSt α}
    {s : List α} (h : sepStep sep st (ChunkEv.push s) = some s₁) :
    st.opn = true ∧ s₁ = { st with buf := st.buf ++ s } := by
  simp only [sepStep] at h
  split at h
  · next hc => injection h with h; exact ⟨hc, h.symm⟩
  · cases h

theorem sepStep_close_eq {α : Type} [DecidableEq α] {sep : List α} {st s₁ : BufSt α}
    (h : sepStep sep st ChunkEv.close = some s₁) :
    st.opn = true ∧ s₁ = { st with opn := false } := by
  simp only [sepStep] at h
  split at h
  · next hc => injection h with h; exact ⟨hc, h.symm⟩
  · cases h

theorem sepStep_emit_eq {α : Type} [DecidableEq α] {sep : List α} {st s₁ : BufSt α}
    {c : List α} (h : sepStep sep st (ChunkEv.emit c) = some s₁) :
    (∃ l r, splitOnce sep st.buf = some (l, r) ∧ c = l ++ sep ∧
        s₁ = { st with buf := r }) ∨
    (splitOnce sep st.buf = none ∧ st.opn = false ∧ st.buf ≠ [] ∧ c = st.buf ∧
        s₁ = { st with buf := [] }) := by
  simp only [sepStep] at h
  split at h
  · next l r hsp =>
      split at h
      · next hc => injection h with h; exact Or.inl ⟨l, r, hsp, hc, h.symm⟩
      · cases h
  · next hsp =>
      split at h
      · cases h
      · next hopn =>
          split at h
          · next hc =>
              injection h with h
              refine Or.inr ⟨hsp, ?_, ?_, hc.2, h.symm⟩
              · cases ho : st.opn with
                | false => rfl
                | true => exact absurd ho hopn
              · intro hb
                exact hc.1 (by rw [hb]; rfl)
          · cases h

theorem sepStep_eos_eq {α : Type} [DecidableEq α] {sep : List α} {st s₁ : BufSt α}
    (h : sepStep sep st ChunkEv.eosSig = some s₁) :
    splitOnce sep st.buf = none ∧ st.opn = false ∧ st.buf = [] ∧ s₁ = st := by
  simp only [sepStep] at h
  split at h
  · cases h
  · next hsp =>
      split at h
      · next hc =>
          injection h with h
          exact ⟨hsp, hc.1, List.length_eq_zero.mp hc.2, h.symm⟩
      · cases h

theorem sep_run_inv {α : Type} [DecidableEq α] (sep : List α) :
    ∀ (tr : List (ChunkEv α)) (st st' : BufSt α),
      chunkRun (sepStep sep) st tr = some st' →
      (emittedChunks tr).flatten ++ st'.buf = st.buf ++ pushedData tr := by
  intro tr
  induction tr with
  | nil =>
      intro st st' h
      injection h with h
      subst h
      simp [emittedChunks_nil, pushedData_nil]
  | cons ev rest ih =>
      intro st st' h
      obtain ⟨s₁, hstep, hrun⟩ := chunkRun_cons_eq h
      have ihr := ih s₁ st' hrun
      cases ev with
      | push s =>
          obtain ⟨-, hs₁⟩ := sepStep_push_eq hstep
          subst hs₁
          rw [emittedChunks_push, pushedData_push]
          simp only at ihr
          rw [ihr]
          simp
      | close =>
          obtain ⟨-, hs₁⟩ := sepStep_close_eq hstep
          subst hs₁
          rw [emittedChunks_close, pushedData_close]
          simpa using ihr
      | eosSig =>
          obtain ⟨-, -, -, hs₁⟩ := sepStep_eos_eq hstep
          subst hs₁
          rw [emittedChunks_eos, pushedData_eos]
          exact ihr
      | emit c =>
          rw [emittedChunks_emit, pushedData_emit]
          rcases sepStep_emit_eq hstep with ⟨l, r, hsp, hc, hs₁⟩ | ⟨-, -, -, hc, hs₁⟩
          · subst hs₁
            have hb := splitOnce_eq sep st.buf l r hsp
            simp only at ihr
            rw [List.flatten_cons, List.append_assoc, ihr, hc, hb]
            simp
          · subst hs₁
            simp only at ihr
            rw [List.flatten_cons, List.append_assoc, ihr, hc]
            simp

theorem sep_closed_empty_run {α : Type} [DecidableEq α] (sep : List α) (hsep : sep ≠ []) :
    ∀ (tr : List (ChunkEv α)) (st' : BufSt α),
      chunkRun (sepStep sep) ⟨[], false⟩ tr = some st' →
      emittedChunks tr = [] ∧ st' = ⟨[], false⟩ := by
  intro tr
  induction tr with
  | nil => intro st' h; injection h with h; exact ⟨rfl, h.symm⟩
  | cons ev rest ih =>
      intro st' h
      obtain ⟨s₁, hstep, hrun⟩ := chunkRun_cons_eq h
      cases ev with
      | push s => simp [sepStep] at hstep
      | close => simp [sepStep] at hstep
      | emit c => simp [sepStep, splitOnce_nil sep hsep] at hstep
      | eosSig =>
          obtain ⟨-, -, -, hs⟩ := sepStep_eos_eq hstep
          subst hs
          obtain ⟨h1, h2⟩ := ih st' hrun
          exact ⟨by rw [emittedChunks_eos, h1], h2⟩

/-- Claim C5: for every sequence of pushed data and every non-empty
separator, the separator-delimited chunk producer round-trips: at the point
end-of-stream is signalled, the concatenation of all emitted chunks equals
the concatenation of all pushed input exactly; and every emitted chunk that
is followed by a further emitted chunk ends with the separator (only the
final chunk may lack it). -/
theorem separator_chunks_roundtrip {α : Type} [DecidableEq α] (sep : List α)
    (hsep : sep ≠ []) :
    (∀ (tr : List (ChunkEv α)) (st' : BufSt α),
        chunkRun (sepStep sep) ⟨[], true⟩ (tr ++ [ChunkEv.eosSig]) = some st' →
        (emittedChunks tr).flatten = pushedData tr) ∧
    (∀ (tr₁ : List (ChunkEv α)) (c : List α) (tr₂ : List (ChunkEv α)) (st' : BufSt α),
        chunkRun (sepStep sep) ⟨[], true⟩ (tr₁ ++ ChunkEv.emit c :: tr₂) = some st' →
        emittedChunks tr₂ ≠ [] → sep <:+ c) := by
  constructor
  · intro tr st' h
    rw [chunkRun_append] at h
    cases h₁ : chunkRun (sepStep sep) ⟨[], true⟩ tr with
    | none => rw [h₁] at h; cases h
    | some s₁ =>
        rw [h₁] at h
        simp only [Option.some_bind] at h
        obtain ⟨s₂, hstep, -⟩ := chunkRun_cons_eq h
        obtain ⟨-, -, hb, -⟩ := sepStep_eos_eq hstep
        have hinv := sep_run_inv sep tr ⟨[], true⟩ s₁ h₁
        rw [hb] at hinv
        simpa using hinv
  · intro tr₁ c tr₂ st' h hne
    rw [chunkRun_append] at h
    cases h₁ : chunkRun (sepStep sep) ⟨[], true⟩ tr₁ with
    | none => rw [h₁] at h; cases h
    | some s₁ =>
        rw [h₁] at h
        simp only [Option.some_bind] at h
        obtain ⟨s₂, hstep, hrun₂⟩ := chunkRun_cons_eq h
        rcases sepStep_emit_eq hstep with ⟨l, r, -, hc, -⟩ | ⟨-, hopn, -, -, hs₁⟩
        · rw [hc]
          exact List.suffix_append l sep
        · exfalso
          have hs₂ : s₂ = (⟨[], false⟩ : BufSt α) := by
            rw [hs₁]
            cases s₁ with
            | mk b o => simp_all
          rw [hs₂] at hrun₂
          exact hne (sep_closed_empty_run sep hsep tr₂ st' hrun₂).1

/-- Witness for C5: separator `[0]`, pushing `[1,0,2,0,3]`, closing, then
emitting `[1,0]`, `[2,0]` and the leftover `[3]`; the concatenation of the
chunks reproduces the input and each non-final chunk ends with the
separator. -/
theorem separator_chunks_roundtrip_witness :
    (emittedChunks
        [ChunkEv.push [1, 0, 2, 0, 3], ChunkEv.close, ChunkEv.emit [1, 0],
         ChunkEv.emit [2, 0], ChunkEv.emit [3]]).flatten =
      pushedData
        [ChunkEv.push [1, 0, 2, 0, 3], ChunkEv.close, ChunkEv.emit [1, 0],
         ChunkEv.emit [2, 0], ChunkEv.emit ([3] : List ℕ)] ∧
    [0] <:+ [1, 0] := by
  have h := separator_chunks_roundtrip (α := ℕ) [0] (by decide)
  exact ⟨h.1 [ChunkEv.push [1, 0, 2, 0, 3], ChunkEv.close, ChunkEv.emit [1, 0],
      ChunkEv.emit [2, 0], ChunkEv.emit [3]] ⟨[], false⟩ (by decide),
    h.2 [ChunkEv.push [1, 0, 2, 0, 3], ChunkEv.close] [1, 0]
      [ChunkEv.emit [2, 0], ChunkEv.emit [3]] ⟨[], false⟩ (by decide) (by decide)⟩

/-- Claim C10: for any integer constructor arguments `min_size` and
`max_size`, including zero, negative, or `max_size < min_size`, the
sized-chunks constructor succeeds (it is a total function) and silently
normalizes the parameters so that `1 ≤ min_size ≤ max_size` holds
afterwards: `min_size` is clamped up to 1, then `max_size` up to
`min_size`. -/
theorem sized_chunks_init_normalizes (min_size max_size : ℤ) :
    1 ≤ (sizedChunksInit min_size max_size).1 ∧
    (sizedChunksInit min_size max_size).1 ≤ (sizedChunksInit min_size max_size).2 ∧
    (sizedChunksInit min_size max_size).1 = max min_size 1 ∧
    (sizedChunksInit min_size max_size).2 = max (max min_size 1) max_size :=
  ⟨le_max_right _ _, le_max_left _ _, rfl, rfl⟩

/-!
## Theorems: generic step runner
-/

theorem runSteps_cons_eq {σ ι : Type} {f : σ → ι → Option σ} {st st' : σ} {a : ι}
    {rest : List ι} (h : runSteps f st (a :: rest) = some st') :
    ∃ s₁, f st a = some s₁ ∧ runSteps f s₁ rest = some st' := by
  simp only [runSteps] at h
  cases hf : f st a with
  | none => rw [hf] at h; cases h
  | some s₁ => rw [hf] at h; exact ⟨s₁, rfl, h⟩

theorem runSteps_inv {σ ι : Type} (f : σ → ι → Option σ) (P : σ → Prop)
    (hstep : ∀ s a s', f s a = some s' → P s → P s') :
    ∀ (acts : List ι) (st st' : σ), runSteps f st acts = some st' → P st → P st' := by
  intro acts
  induction acts with
  | nil =>
      intro st st' h hP
      injection h with h
      rwa [← h]
  | cons a rest ih =>
      intro st st' h hP
      obtain ⟨s₁, h1, h2⟩ := runSteps_cons_eq h
      exact ih s₁ st' h2 (hstep st a s₁ h1 hP)

/-!
## Theorems: Tee
-/

theorem teeStep_request_eq {α : Type} [DecidableEq α] {up : List α} {st st' : TeeSt α}
    {i : ℕ} (h : teeStep up st (TeeAct.request i) = some st') :
    ∃ c, st.cons[i]? = some c ∧ c.phase = TPhase.idle ∧
      st' = { st with cons := st.cons.set i { c with phase := TPhase.pending } } := by
  simp only [teeStep] at h
  split at h
  · cases h
  · next c hc =>
      split at h
      · next hp => injection h with h; exact ⟨c, hc, hp, h.symm⟩
      · cases h

theorem teeStep_pull_eq {α : Type} [DecidableEq α] {up : List α} {st st' : TeeSt α}
    (h : teeStep up st TeeAct.pull = some st') :
    (st.cons ≠ [] ∧ ∀ c ∈ st.cons, c.phase = TPhase.pending) ∧
    ((∃ v, up[st.pos]? = some v ∧
        st' = ⟨st.pos + 1, st.cons.map fun c => { c with phase := TPhase.got v }⟩) ∨
      (up[st.pos]? = none ∧
        st' = { st with cons := st.cons.map fun c => { c with phase := TPhase.done } })) := by
  simp only [teeStep] at h
  split at h
  · next hcond =>
      split at h
      · next v hv => injection h with h; exact ⟨hcond, Or.inl ⟨v, hv, h.symm⟩⟩
      · next hv => injection h with h; exact ⟨hcond, Or.inr ⟨hv, h.symm⟩⟩
  · cases h

theorem teeStep_collect_eq {α : Type} [DecidableEq α] {up : List α} {st st' : TeeSt α}
    {i : ℕ} (h : teeStep up st (TeeAct.collect i) = some st') :
    ∃ c v, st.cons[i]? = some c ∧ c.phase = TPhase.got v ∧
      st' = { st with cons := st.cons.set i ⟨TPhase.idle, c.obs ++ [v]⟩ } := by
  simp only [teeStep] at h
  split at h
  · cases h
  · next c hc =>
      split at h
      · next v hp => injection h with h; exact ⟨c, v, hc, hp, h.symm⟩
      · cases h

theorem teeStep_length {α : Type} [DecidableEq α] {up : List α} {st st' : TeeSt α}
    {a : TeeAct} (h : teeStep up st a = some st') :
    st'.cons.length = st.cons.length := by
  cases a with
  | request i =>
      obtain ⟨c, -, -, hst⟩ := teeStep_request_eq h
      subst hst
      simp
  | pull =>
      obtain ⟨-, hcase⟩ := teeStep_pull_eq h
      rcases hcase with ⟨v, -, hst⟩ | ⟨-, hst⟩ <;> subst hst <;> simp
  | collect i =>
      obtain ⟨c, v, -, -, hst⟩ := teeStep_collect_eq h
      subst hst
      simp

theorem teeStep_inv {α : Type} [DecidableEq α] {up : List α} {st st' : TeeSt α}
    {a : TeeAct} (h : teeStep up st a = some st') (hinv : TeeInv up st) :
    TeeInv up st' := by
  obtain ⟨hpos, hc⟩ := hinv
  cases a with
  | request i =>
      obtain ⟨c, hci, hidle, hst⟩ := teeStep_request_eq h
      subst hst
      refine ⟨hpos, ?_⟩
      intro c' hc'
      replace hc' : c' ∈ st.cons.set i { c with phase := TPhase.pending } := hc'
      rcases List.mem_or_eq_of_mem_set hc' with hmem | heq
      · exact hc c' hmem
      · subst heq
        have hcmem : c ∈ st.cons := List.getElem?_mem hci
        refine ⟨?_, ?_, ?_⟩
        · intro hd
          have hd' : TPhase.pending = TPhase.done := hd
          cases hd'
        · intro v hg
          have hg' : TPhase.pending = TPhase.got v := hg
          cases hg'
        · intro _
          show c.obs = up.take st.pos
          exact (hc c hcmem).2.2 (Or.inl hidle)
  | pull =>
      obtain ⟨⟨hne, hall⟩, hcase⟩ := teeStep_pull_eq h
      rcases hcase with ⟨v, hv, hst⟩ | ⟨hv, hst⟩
      · subst hst
        have hlt : st.pos < up.length := by
          by_contra hge
          push_neg at hge
          rw [List.getElem?_eq_none hge] at hv
          cases hv
        have hvv : up[st.pos] = v := by
          rw [List.getElem?_eq_getElem hlt] at hv
          injection hv
        refine ⟨by show st.pos + 1 ≤ up.length; omega, ?_⟩
        intro c' hc'
        replace hc' : c' ∈ st.cons.map fun c => { c with phase := TPhase.got v } := hc'
        obtain ⟨c, hcm, hceq⟩ := List.mem_map.mp hc'
        subst hceq
        refine ⟨?_, ?_, ?_⟩
        · intro hd
          have hd' : TPhase.got v = TPhase.done := hd
          cases hd'
        · intro v' hg
          have hg' : TPhase.got v = TPhase.got v' := hg
          injection hg' with hv'
          subst hv'
          show c.obs ++ [v] = up.take (st.pos + 1)
          have hobs : c.obs = up.take st.pos := (hc c hcm).2.2 (Or.inr (hall c hcm))
          rw [hobs, ← hvv]
          exact List.take_concat_get' up st.pos hlt
        · intro hip
          rcases hip with h1 | h1
          · have h1' : TPhase.got v = TPhase.idle := h1
            cases h1'
          · have h1' : TPhase.got v = TPhase.pending := h1
            cases h1'
      · subst hst
        have hge : up.length ≤ st.pos := by
          by_contra hlt
          push_neg at hlt
          rw [List.getElem?_eq_getElem hlt] at hv
          cases hv
        refine ⟨hpos, ?_⟩
        intro c' hc'
        replace hc' : c' ∈ st.cons.map fun c => { c with phase := TPhase.done } := hc'
        obtain ⟨c, hcm, hceq⟩ := List.mem_map.mp hc'
        subst hceq
        refine ⟨?_, ?_, ?_⟩
        · intro _
          have hobs : c.obs = up.take st.pos := (hc c hcm).2.2 (Or.inr (hall c hcm))
          have hpe : st.pos = up.length := by omega
          constructor
          · show c.obs = up
            rw [hobs, hpe, List.take_length]
          · exact hpe
        · intro v' hg
          have hg' : TPhase.done = TPhase.got v' := hg
          cases hg'
        · intro hip
          rcases hip with h1 | h1
          · have h1' : TPhase.done = TPhase.idle := h1
            cases h1'
          · have h1' : TPhase.done = TPhase.pending := h1
            cases h1'
  | collect i =>
      obtain ⟨c, v, hci, hgot, hst⟩ := teeStep_collect_eq h
      subst hst
      refine ⟨hpos, ?_⟩
      intro c' hc'
      replace hc' : c' ∈ st.cons.set i ⟨TPhase.idle, c.obs ++ [v]⟩ := hc'
      rcases List.mem_or_eq_of_mem_set hc' with hmem | heq
      · exact hc c' hmem
      · subst heq
        have hcmem : c ∈ st.cons := List.getElem?_mem hci
        refine ⟨?_, ?_, ?_⟩
        · intro hd
          have hd' : TPhase.idle = TPhase.done := hd
          cases hd'
        · intro v' hg
          have hg' : TPhase.idle = TPhase.got v' := hg
          cases hg'
        · intro _
          show c.obs ++ [v] = up.take st.pos
          exact (hc c hcmem).2.1 v hgot

theorem teeInit_inv {α : Type} (up : List α) (n : ℕ) : TeeInv up (teeInit α n) := by
  refine ⟨Nat.zero_le _, ?_⟩
  intro c hcm
  have hceq := List.eq_of_mem_replicate hcm
  subst hceq
  refine ⟨?_, ?_, ?_⟩
  · intro hd
    have hd' : TPhase.idle = TPhase.done := hd
    cases hd'
  · intro v hg
    have hg' : TPhase.idle = TPhase.got v := hg
    cases hg'
  · intro _
    show ([] : List α) = up.take (teeInit α n).pos
    simp [teeInit]

/-- Claim C6: for a Tee with `n` attached outputs over an upstream frame
sequence `up`, in every reachable state all `n` outputs are present and
every finished output has observed exactly the full upstream sequence in
order (and every output not holding a resolved frame has observed exactly
the first `pos` pulled frames, the same for all outputs); the shared
upstream position advances only in a state where every attached output has a
pending request; and a pulled frame resolves every pending request
simultaneously with that same frame. -/
theorem tee_broadcast_same_frames {α : Type} [DecidableEq α] (up : List α) (n : ℕ) :
    (∀ (acts : List TeeAct) (st' : TeeSt α),
        runSteps (teeStep up) (teeInit α n) acts = some st' →
        st'.cons.length = n ∧
        (∀ c ∈ st'.cons, c.phase = TPhase.done → c.obs = up) ∧
        (∀ c ∈ st'.cons,
            c.phase = TPhase.idle ∨ c.phase = TPhase.pending →
            c.obs = up.take st'.pos)) ∧
    (∀ (st st' : TeeSt α) (a : TeeAct),
        teeStep up st a = some st' → st'.pos ≠ st.pos →
        st.cons ≠ [] ∧ ∀ c ∈ st.cons, c.phase = TPhase.pending) ∧
    (∀ (st st' : TeeSt α) (v : α),
        teeStep up st TeeAct.pull = some st' → up[st.pos]? = some v →
        st'.pos = st.pos + 1 ∧ ∀ c ∈ st'.cons, c.phase = TPhase.got v) := by
  refine ⟨?_, ?_, ?_⟩
  · intro acts st' hrun
    have hlen : st'.cons.length = n := by
      have := runSteps_inv (teeStep up) (fun s => s.cons.length = n)
        (fun s a s' hs hP => by show s'.cons.length = n; rw [teeStep_length hs]; exact hP)
        acts _ st' hrun
      simpa [teeInit] using this (by simp [teeInit])
    have hinv : TeeInv up st' :=
      runSteps_inv (teeStep up) (TeeInv up)
        (fun s a s' hs hP => teeStep_inv hs hP) acts _ st' hrun (teeInit_inv up n)
    exact ⟨hlen, fun c hcm hd => ((hinv.2 c hcm).1 hd).1,
      fun c hcm hip => (hinv.2 c hcm).2.2 hip⟩
  · intro st st' a hstep hne
    cases a with
    | request i =>
        obtain ⟨c, -, -, hst⟩ := teeStep_request_eq hstep
        subst hst
        exact absurd rfl hne
    | pull => exact (teeStep_pull_eq hstep).1
    | collect i =>
        obtain ⟨c, v, -, -, hst⟩ := teeStep_collect_eq hstep
        subst hst
        exact absurd rfl hne
  · intro st st' v hstep hv
    obtain ⟨-, hcase⟩ := teeStep_pull_eq hstep
    rcases hcase with ⟨v', hv', hst⟩ | ⟨hv', hst⟩
    · rw [hv] at hv'
      injection hv' with hv'
      subst hv'
      subst hst
      refine ⟨rfl, ?_⟩
      intro c hcm
      obtain ⟨c₀, -, hceq⟩ := List.mem_map.mp hcm
      subst hceq
      rfl
    · rw [hv] at hv'
      cases hv'

/-- Witness for C6: two outputs over upstream `[10, 20]`; a full run leaves
both outputs done having observed `[10, 20]`, the upstream advances only
from the all-pending state, and a pull resolves both pending requests with
the same frame. -/
theorem tee_broadcast_same_frames_witness :
    (∀ c ∈ (⟨2, [⟨TPhase.done, [10, 20]⟩, ⟨TPhase.done, [10, 20]⟩]⟩ : TeeSt ℕ).cons,
        c.phase = TPhase.done → c.obs = [10, 20]) ∧
    ((⟨0, [⟨TPhase.pending, []⟩, ⟨TPhase.pending, []⟩]⟩ : TeeSt ℕ).cons ≠ [] ∧
      ∀ c ∈ (⟨0, [⟨TPhase.pending, []⟩, ⟨TPhase.pending, []⟩]⟩ : TeeSt ℕ).cons,
        c.phase = TPhase.pending) ∧
    (∀ c ∈ (⟨1, [⟨TPhase.got 10, []⟩, ⟨TPhase.got 10, []⟩]⟩ : TeeSt ℕ).cons,
        c.phase = TPhase.got 10) := by
  have h := tee_broadcast_same_frames [10, 20] 2
  refine ⟨(h.1 [TeeAct.request 0, TeeAct.request 1, TeeAct.pull, TeeAct.collect 0,
      TeeAct.collect 1, TeeAct.request 0, TeeAct.request 1, TeeAct.pull,
      TeeAct.collect 0, TeeAct.collect 1, TeeAct.request 0, TeeAct.request 1,
      TeeAct.pull] ⟨2, [⟨TPhase.done, [10, 20]⟩, ⟨TPhase.done, [10, 20]⟩]⟩
      (by decide)).2.1, ?_, ?_⟩
  · exact h.2.1 ⟨0, [⟨TPhase.pending, []⟩, ⟨TPhase.pending, []⟩]⟩
      ⟨1, [⟨TPhase.got 10, []⟩, ⟨TPhase.got 10, []⟩]⟩ TeeAct.pull (by decide) (by decide)
  · exact (h.2.2 ⟨0, [⟨TPhase.pending, []⟩, ⟨TPhase.pending, []⟩]⟩
      ⟨1, [⟨TPhase.got 10, []⟩, ⟨TPhase.got 10, []⟩]⟩ 10 (by decide) (by decide)).2

/-!
## Theorems: Branch
-/

theorem branchStep_request_eq {α : Type} [DecidableEq α] {f : α → ℕ} {up : List α}
    {st st' : TeeSt α} {i : ℕ} (h : branchStep f up st (TeeAct.request i) = some st') :
    ∃ c, st.cons[i]? = some c ∧ c.phase = TPhase.idle ∧
      st' = { st with cons := st.cons.set i { c with phase := TPhase.pending } } := by
  simp only [branchStep] at h
  split at h
  · cases h
  · next c hc =>
      split at h
      · next hp => injection h with h; exact ⟨c, hc, hp, h.symm⟩
      · cases h

theorem branchStep_pull_eq {α : Type} [DecidableEq α] {f : α → ℕ} {up : List α}
    {st st' : TeeSt α} (h : branchStep f up st TeeAct.pull = some st') :
    (st.cons ≠ [] ∧ ∀ c ∈ st.cons, c.phase = TPhase.pending) ∧
    ((∃ v c, up[st.pos]? = some v ∧ st.cons[f v]? = some c ∧ c.phase = TPhase.pending ∧
        st' = ⟨st.pos + 1, st.cons.set (f v) { c with phase := TPhase.got v }⟩) ∨
      (∃ v, up[st.pos]? = some v ∧ st.cons[f v]? = none ∧
        st' = { st with pos := st.pos + 1 }) ∨
      (up[st.pos]? = none ∧
        st' = { st with cons := st.cons.map fun c => { c with phase := TPhase.done } })) := by
  simp only [branchStep] at h
  split at h
  · next hcond =>
      split at h
      · next v hv =>
          split at h
          · next c hcv =>
              split at h
              · next hp =>
                  injection h with h
                  exact ⟨hcond, Or.inl ⟨v, c, hv, hcv, hp, h.symm⟩⟩
              · cases h
          · next hcv =>
              injection h with h
              exact ⟨hcond, Or.inr (Or.inl ⟨v, hv, hcv, h.symm⟩)⟩
      · next hv =>
          injection h with h
          exact ⟨hcond, Or.inr (Or.inr ⟨hv, h.symm⟩)⟩
  · cases h

theorem branchStep_collect_eq {α : Type} [DecidableEq α] {f : α → ℕ} {up : List α}
    {st st' : TeeSt α} {i : ℕ} (h : branchStep f up st (TeeAct.collect i) = some st') :
    ∃ c v, st.cons[i]? = some c ∧ c.phase = TPhase.got v ∧
      st' = { st with cons := st.cons.set i ⟨TPhase.idle, c.obs ++ [v]⟩ } := by
  simp only [branchStep] at h
  split at h
  · cases h
  · next c hc =>
      split at h
      · next v hp => injection h with h; exact ⟨c, v, hc, hp, h.symm⟩
      · cases h

theorem mem_keyFilter {α : Type} {f : α → ℕ} {i : ℕ} {l : List α} {v : α} :
    v ∈ keyFilter f i l ↔ v ∈ l ∧ f v = i := by
  simp [keyFilter, List.mem_filter]

theorem keyFilter_append {α : Type} (f : α → ℕ) (i : ℕ) (l₁ l₂ : List α) :
    keyFilter f i (l₁ ++ l₂) = keyFilter f i l₁ ++ keyFilter f i l₂ := by
  simp [keyFilter, List.filter_append]

theorem keyFilter_take_succ {α : Type} (f : α → ℕ) (i : ℕ) (up : List α) (p : ℕ)
    (hp : p < up.length) :
    keyFilter f i (up.take (p + 1)) =
      keyFilter f i (up.take p) ++ if f up[p] = i then [up[p]] else [] := by
  rw [← List.take_concat_get' up p hp, keyFilter_append]
  congr 1
  by_cases h : f up[p] = i <;> simp [keyFilter, h]

theorem branchInit_inv {α : Type} (f : α → ℕ) (up : List α) (n : ℕ) :
    BrInv f up (teeInit α n) := by
  refine ⟨Nat.zero_le _, ?_⟩
  intro i c hc
  have hcm : c ∈ (teeInit α n).cons := List.getElem?_mem hc
  have hceq := List.eq_of_mem_replicate hcm
  subst hceq
  refine ⟨?_, ?_, ?_⟩
  · intro hd
    have hd' : TPhase.idle = TPhase.done := hd
    cases hd'
  · intro v hg
    have hg' : TPhase.idle = TPhase.got v := hg
    cases hg'
  · intro _
    show ([] : List α) = keyFilter f i (up.take (teeInit α n).pos)
    simp [teeInit, keyFilter]

theorem branchStep_inv {α : Type} [DecidableEq α] {f : α → ℕ} {up : List α}
    {st st' : TeeSt α} {a : TeeAct} (h : branchStep f up st a = some st')
    (hinv : BrInv f up st) : BrInv f up st' := by
  obtain ⟨hpos, hc⟩ := hinv
  cases a with
  | request i =>
      obtain ⟨c, hci, hidle, hst⟩ := branchStep_request_eq h
      subst hst
      refine ⟨hpos, ?_⟩
      intro k ck hck
      replace hck : (st.cons.set i { c with phase := TPhase.pending })[k]? = some ck := hck
      by_cases hik : i = k
      · subst hik
        have hlt : i < st.cons.length := (List.getElem?_eq_some.mp hci).1
        rw [List.getElem?_set_self hlt] at hck
        injection hck with hck
        subst hck
        refine ⟨?_, ?_, ?_⟩
        · intro hd
          have hd' : TPhase.pending = TPhase.done := hd
          cases hd'
        · intro v hg
          have hg' : TPhase.pending = TPhase.got v := hg
          cases hg'
        · intro _
          show c.obs = keyFilter f i (up.take st.pos)
          exact (hc i c hci).2.2 (Or.inl hidle)
      · rw [List.getElem?_set_ne hik] at hck
        exact hc k ck hck
  | pull =>
      obtain ⟨⟨hne, hall⟩, hcase⟩ := branchStep_pull_eq h
      rcases hcase with ⟨v, c, hv, hcv, hcp, hst⟩ | ⟨v, hv, hcv, hst⟩ | ⟨hv, hst⟩
      · subst hst
        have hlt : st.pos < up.length := by
          by_contra hge
          push_neg at hge
          rw [List.getElem?_eq_none hge] at hv
          cases hv
        have hvv : up[st.pos] = v := by
          rw [List.getElem?_eq_getElem hlt] at hv
          injection hv
        refine ⟨by show st.pos + 1 ≤ up.length; omega, ?_⟩
        intro k ck hck
        replace hck :
            (st.cons.set (f v) { c with phase := TPhase.got v })[k]? = some ck := hck
        have htake := keyFilter_take_succ f k up st.pos hlt
        by_cases hik : f v = k
        · subst hik
          have hflt : f v < st.cons.length := (List.getElem?_eq_some.mp hcv).1
          rw [List.getElem?_set_self hflt] at hck
          injection hck with hck
          subst hck
          refine ⟨?_, ?_, ?_⟩
          · intro hd
            have hd' : TPhase.got v = TPhase.done := hd
            cases hd'
          · intro v' hg
            have hg' : TPhase.got v = TPhase.got v' := hg
            injection hg' with hv'
            subst hv'
            refine ⟨rfl, ?_⟩
            show c.obs ++ [v] = keyFilter f (f v) (up.take (st.pos + 1))
            rw [htake, hvv]
            have hobs : c.obs = keyFilter f (f v) (up.take st.pos) :=
              (hc (f v) c hcv).2.2 (Or.inr hcp)
            rw [hobs]
            simp
          · intro hip
            rcases hip with h1 | h1
            · have h1' : TPhase.got v = TPhase.idle := h1
              cases h1'
            · have h1' : TPhase.got v = TPhase.pending := h1
              cases h1'
        · rw [List.getElem?_set_ne hik] at hck
          have hckm : ck ∈ st.cons := List.getElem?_mem hck
          have hckp : ck.phase = TPhase.pending := hall ck hckm
          refine ⟨?_, ?_, ?_⟩
          · intro hd
            rw [hckp] at hd
            cases hd
          · intro v' hg
            rw [hckp] at hg
            cases hg
          · intro _
            show ck.obs = keyFilter f k (up.take (st.pos + 1))
            rw [htake]
            have hnil : (if f up[st.pos] = k then [up[st.pos]] else []) = [] := by
              rw [hvv]
              simp [hik]
            rw [hnil, List.append_nil]
            exact (hc k ck hck).2.2 (Or.inr hckp)
      · subst hst
        have hlt : st.pos < up.length := by
          by_contra hge
          push_neg at hge
          rw [List.getElem?_eq_none hge] at hv
          cases hv
        have hvv : up[st.pos] = v := by
          rw [List.getElem?_eq_getElem hlt] at hv
          injection hv
        refine ⟨by show st.pos + 1 ≤ up.length; omega, ?_⟩
        intro k ck hck
        replace hck : st.cons[k]? = some ck := hck
        have hkl : k < st.cons.length := (List.getElem?_eq_some.mp hck).1
        have hfl : st.cons.length ≤ f v := by
          by_contra hx
          push_neg at hx
          rw [List.getElem?_eq_getElem hx] at hcv
          cases hcv
        have hckm : ck ∈ st.cons := List.getElem?_mem hck
        have hckp : ck.phase = TPhase.pending := hall ck hckm
        have htake := keyFilter_take_succ f k up st.pos hlt
        refine ⟨?_, ?_, ?_⟩
        · intro hd
          rw [hckp] at hd
          cases hd
        · intro v' hg
          rw [hckp] at hg
          cases hg
        · intro _
          show ck.obs = keyFilter f k (up.take (st.pos + 1))
          rw [htake]
          have hnil : (if f up[st.pos] = k then [up[st.pos]] else []) = [] := by
            rw [hvv]
            have : f v ≠ k := by omega
            simp [this]
          rw [hnil, List.append_nil]
          exact (hc k ck hck).2.2 (Or.inr hckp)
      · subst hst
        have hge : up.length ≤ st.pos := by
          by_contra hx
          push_neg at hx
          rw [List.getElem?_eq_getElem hx] at hv
          cases hv
        have hpe : st.pos = up.length := by omega
        refine ⟨hpos, ?_⟩
        intro k ck hck
        replace hck :
            (st.cons.map fun c => { c with phase := TPhase.done })[k]? = some ck := hck
        rw [List.getElem?_map] at hck
        cases hcc : st.cons[k]? with
        | none => rw [hcc] at hck; cases hck
        | some c0 =>
            rw [hcc] at hck
            simp only [Option.map_some'] at hck
            injection hck with hck
            subst hck
            have hc0m : c0 ∈ st.cons := List.getElem?_mem hcc
            have hc0p : c0.phase = TPhase.pending := hall c0 hc0m
            refine ⟨?_, ?_, ?_⟩
            · intro _
              constructor
              · show c0.obs = keyFilter f k up
                have hobs : c0.obs = keyFilter f k (up.take st.pos) :=
                  (hc k c0 hcc).2.2 (Or.inr hc0p)
                rw [hobs, hpe, List.take_length]
              · exact hpe
            · intro v' hg
              have hg' : TPhase.done = TPhase.got v' := hg
              cases hg'
            · intro hip
              rcases hip with h1 | h1
              · have h1' : TPhase.done = TPhase.idle := h1
                cases h1'
              · have h1' : TPhase.done = TPhase.pending := h1
                cases h1'
  | collect i =>
      obtain ⟨c, v, hci, hgot, hst⟩ := branchStep_collect_eq h
      subst hst
      refine ⟨hpos, ?_⟩
      intro k ck hck
      replace hck : (st.cons.set i ⟨TPhase.idle, c.obs ++ [v]⟩)[k]? = some ck := hck
      by_cases hik : i = k
      · subst hik
        have hlt : i < st.cons.length := (List.getElem?_eq_some.mp hci).1
        rw [List.getElem?_set_self hlt] at hck
        injection hck with hck
        subst hck
        obtain ⟨hfv, hobs⟩ := (hc i c hci).2.1 v hgot
        refine ⟨?_, ?_, ?_⟩
        · intro hd
          have hd' : TPhase.idle = TPhase.done := hd
          cases hd'
        · intro v' hg
          have hg' : TPhase.idle = TPhase.got v' := hg
          cases hg'
        · intro _
          show c.obs ++ [v] = keyFilter f i (up.take st.pos)
          exact hobs
      · rw [List.getElem?_set_ne hik] at hck
        exact hc k ck hck

/-- Claim C7: in every reachable state of a Branch with classifier `f` and
branches registered for keys `0 .. n-1`, every finished branch `i` has
observed exactly the frames the classifier routes to key `i`, in arrival
order, and every branch not holding a resolved frame has observed exactly
those among the first `pos` pulled frames — so each frame is delivered to
exactly one branch, the one its key classifies it to (membership in
`keyFilter f i` is exactly "the frame occurred and its key is `i`").  In
particular, for `f = (· % 3)` over `[1..9]`, branch 0 observes `[3,6,9]`,
branch 1 `[1,4,7]` and branch 2 `[2,5,8]` (witness). -/
theorem branch_keyed_delivery {α : Type} [DecidableEq α] (f : α → ℕ) (up : List α)
    (n : ℕ) :
    (∀ (acts : List TeeAct) (st' : TeeSt α),
        runSteps (branchStep f up) (teeInit α n) acts = some st' →
        ∀ (i : ℕ) (c : TeeCons α), st'.cons[i]? = some c →
          (c.phase = TPhase.done → c.obs = keyFilter f i up) ∧
          (c.phase = TPhase.idle ∨ c.phase = TPhase.pending →
            c.obs = keyFilter f i (up.take st'.pos))) ∧
    (∀ (i : ℕ) (l : List α) (v : α), v ∈ keyFilter f i l ↔ v ∈ l ∧ f v = i) := by
  constructor
  · intro acts st' hrun i c hci
    have hinv : BrInv f up st' :=
      runSteps_inv (branchStep f up) (BrInv f up)
        (fun s a s' hs hP => branchStep_inv hs hP) acts _ st' hrun
        (branchInit_inv f up n)
    exact ⟨fun hd => ((hinv.2 i c hci).1 hd).1, fun hip => (hinv.2 i c hci).2.2 hip⟩
  · intro i l v
    exact mem_keyFilter

/-- Witness for C7: classifier `frame % 3` over `[1..9]` with branches
`0, 1, 2`; a complete run finishes every branch, branch 0 having observed
`[3,6,9]`, branch 1 `[1,4,7]` and branch 2 `[2,5,8]`. -/
theorem branch_keyed_delivery_witness :
    ([3, 6, 9] : List ℕ) = keyFilter (fun v => v % 3) 0 [1, 2, 3, 4, 5, 6, 7, 8, 9] ∧
    ([1, 4, 7] : List ℕ) = keyFilter (fun v => v % 3) 1 [1, 2, 3, 4, 5, 6, 7, 8, 9] ∧
    ([2, 5, 8] : List ℕ) = keyFilter (fun v => v % 3) 2 [1, 2, 3, 4, 5, 6, 7, 8, 9] ∧
    (6 ∈ keyFilter (fun v => v % 3) 0 [1, 2, 3, 4, 5, 6, 7, 8, 9] ↔
      6 ∈ ([1, 2, 3, 4, 5, 6, 7, 8, 9] : List ℕ) ∧ 6 % 3 = 0) := by
  have h := branch_keyed_delivery (fun v => v % 3) [1, 2, 3, 4, 5, 6, 7, 8, 9] 3
  have hrun := h.1
    [TeeAct.request 0, TeeAct.request 1, TeeAct.request 2,
     TeeAct.pull, TeeAct.collect 1, TeeAct.request 1,
     TeeAct.pull, TeeAct.collect 2, TeeAct.request 2,
     TeeAct.pull, TeeAct.collect 0, TeeAct.request 0,
     TeeAct.pull, TeeAct.collect 1, TeeAct.request 1,
     TeeAct.pull, TeeAct.collect 2, TeeAct.request 2,
     TeeAct.pull, TeeAct.collect 0, TeeAct.request 0,
     TeeAct.pull, TeeAct.collect 1, TeeAct.request 1,
     TeeAct.pull, TeeAct.collect 2, TeeAct.request 2,
     TeeAct.pull, TeeAct.collect 0, TeeAct.request 0,
     TeeAct.pull]
    ⟨9, [⟨TPhase.done, [3, 6, 9]⟩, ⟨TPhase.done, [1, 4, 7]⟩, ⟨TPhase.done, [2, 5, 8]⟩]⟩
    (by decide)
  refine ⟨?_, ?_, ?_, h.2 0 [1, 2, 3, 4, 5, 6, 7, 8, 9] 6⟩
  · exact (hrun 0 ⟨TPhase.done, [3, 6, 9]⟩ (by decide)).1 rfl
  · exact (hrun 1 ⟨TPhase.done, [1, 4, 7]⟩ (by decide)).1 rfl
  · exact (hrun 2 ⟨TPhase.done, [2, 5, 8]⟩ (by decide)).1 rfl

/-!
## Theorems: Cache
-/

theorem ledgerVals_append {α : Type} (l₁ l₂ : List (Entry α)) :
    ledgerVals (l₁ ++ l₂) = ledgerVals l₁ ++ ledgerVals l₂ := by
  simp [ledgerVals]

theorem ledgerVals_val {α : Type} (v : α) : ledgerVals [Entry.val v] = [v] := rfl

theorem ledgerVals_eos {α : Type} : ledgerVals ([Entry.eos] : List (Entry α)) = [] := rfl

theorem cacheStep_eq {α : Type} [DecidableEq α] {up : List α} {st st' : CacheSt α}
    {i : ℕ} (h : cacheStep up st i = some st') :
    ∃ c, st.cons[i]? = some c ∧
    ((∃ t, c.phase = CPhase.waiting t ∧ t < st.completed ∧
        st' = { st with cons := st.cons.set i { c with phase := CPhase.running } }) ∨
      (∃ v, c.phase = CPhase.fetching ∧ up[st.pos]? = some v ∧
        st' = { st with
                pos := st.pos + 1,
                ledger := st.ledger ++ [Entry.val v],
                inFlight := false,
                completed := st.completed + 1,
                cons := st.cons.set i { c with phase := CPhase.running } }) ∨
      (c.phase = CPhase.fetching ∧ up[st.pos]? = none ∧
        st' = { st with
                ledger := st.ledger ++ [Entry.eos],
                inFlight := false,
                completed := st.completed + 1,
                cons := st.cons.set i { c with phase := CPhase.running } }) ∨
      (∃ v, c.phase = CPhase.running ∧ st.ledger[c.idx]? = some (Entry.val v) ∧
        st' = { st with cons := st.cons.set i ⟨c.idx + 1, c.obs ++ [v], CPhase.running⟩ }) ∨
      (c.phase = CPhase.running ∧ st.ledger[c.idx]? = some Entry.eos ∧
        st' = { st with cons := st.cons.set i { c with phase := CPhase.done } }) ∨
      (c.phase = CPhase.running ∧ st.ledger[c.idx]? = none ∧
        st.ledger.getLast? = some Entry.eos ∧
        st' = { st with cons := st.cons.set i { c with phase := CPhase.done } }) ∨
      (c.phase = CPhase.running ∧ st.ledger[c.idx]? = none ∧
        st.ledger.getLast? ≠ some Entry.eos ∧ st.inFlight = true ∧
        st' =
          { st with cons := st.cons.set i { c with phase := CPhase.waiting st.completed } }) ∨
      (c.phase = CPhase.running ∧ st.ledger[c.idx]? = none ∧
        st.ledger.getLast? ≠ some Entry.eos ∧ st.inFlight = false ∧
        st' = { st with
                inFlight := true,
                cons := st.cons.set i { c with phase := CPhase.fetching } })) := by
  simp only [cacheStep] at h
  split at h
  · cases h
  · next c hci =>
      refine ⟨c, hci, ?_⟩
      split at h
      · cases h
      · next t hph =>
          split at h
          · next ht =>
              injection h with h
              exact Or.inl ⟨t, hph, ht, h.symm⟩
          · cases h
      · next hph =>
          split at h
          · next v hv =>
              injection h with h
              exact Or.inr (Or.inl ⟨v, hph, hv, h.symm⟩)
          · next hv =>
              injection h with h
              exact Or.inr (Or.inr (Or.inl ⟨hph, hv, h.symm⟩))
      · next hph =>
          split at h
          · next v hl =>
              injection h with h
              exact Or.inr (Or.inr (Or.inr (Or.inl ⟨v, hph, hl, h.symm⟩)))
          · next hl =>
              injection h with h
              exact Or.inr (Or.inr (Or.inr (Or.inr (Or.inl ⟨hph, hl, h.symm⟩))))
          · next hl =>
              split at h
              · next hlast =>
                  injection h with h
                  exact Or.inr (Or.inr (Or.inr (Or.inr (Or.inr
                    (Or.inl ⟨hph, hl, hlast, h.symm⟩)))))
              · next hlast =>
                  split at h
                  · next hif =>
                      injection h with h
                      exact Or.inr (Or.inr (Or.inr (Or.inr (Or.inr (Or.inr
                        (Or.inl ⟨hph, hl, hlast, hif, h.symm⟩))))))
                  · next hif =>
                      injection h with h
                      refine Or.inr (Or.inr (Or.inr (Or.inr (Or.inr (Or.inr (Or.inr
                        ⟨hph, hl, hlast, ?_, h.symm⟩))))))
                      cases hb : st.inFlight with
                      | false => rfl
                      | true => exact absurd hb hif

theorem cacheInit_inv {α : Type} (up : List α) (n : ℕ) : CInv up (cacheInit α n) := by
  refine ⟨Nat.zero_le _, rfl, ?_, ?_, ?_, ?_, ?_, ?_⟩
  · intro j hj
    simp [cacheInit] at hj
  · intro hm
    simp [cacheInit] at hm
  · intro hf
    simp [cacheInit] at hf
  · intro i j ci cj hi hj hfi hfj
    have hm : ci ∈ (cacheInit α n).cons := List.getElem?_mem hi
    have := List.eq_of_mem_replicate hm
    subst this
    have hfi' : CPhase.running = CPhase.fetching := hfi
    cases hfi'
  · intro i ci hi hfi
    have hm : ci ∈ (cacheInit α n).cons := List.getElem?_mem hi
    have := List.eq_of_mem_replicate hm
    subst this
    have hfi' : CPhase.running = CPhase.fetching := hfi
    cases hfi'
  · intro c hm
    have := List.eq_of_mem_replicate hm
    subst this
    refine ⟨?_, ?_⟩
    · intro hd
      have hd' : CPhase.running = CPhase.done := hd
      cases hd'
    · intro _
      exact ⟨Nat.zero_le _, rfl⟩

theorem forall_mem_set {β : Type} {P : β → Prop} {l : List β} {i : ℕ} {x : β}
    (hall : ∀ c ∈ l, P c) (hx : P x) : ∀ c ∈ l.set i x, P c := by
  intro c hc
  rcases List.mem_or_eq_of_mem_set hc with hm | he
  · exact hall c hm
  · subst he
    exact hx

theorem fetchUniq_set_not_fetching {α : Type} {l : List (CacheCons α)} {i : ℕ}
    {x : CacheCons α} (hil : i < l.length)
    (huniq : ∀ (i' j' : ℕ) (ci cj : CacheCons α), l[i']? = some ci → l[j']? = some cj →
        ci.phase = CPhase.fetching → cj.phase = CPhase.fetching → i' = j')
    (hx : x.phase ≠ CPhase.fetching) :
    ∀ (i' j' : ℕ) (ci cj : CacheCons α), (l.set i x)[i']? = some ci →
        (l.set i x)[j']? = some cj → ci.phase = CPhase.fetching →
        cj.phase = CPhase.fetching → i' = j' := by
  intro i' j' ci cj hi' hj' hfi hfj
  by_cases h1 : i = i'
  · exfalso
    subst h1
    rw [List.getElem?_set_self hil] at hi'
    injection hi' with hi'
    subst hi'
    exact hx hfi
  · rw [List.getElem?_set_ne h1] at hi'
    by_cases h2 : i = j'
    · exfalso
      subst h2
      rw [List.getElem?_set_self hil] at hj'
      injection hj' with hj'
      subst hj'
      exact hx hfj
    · rw [List.getElem?_set_ne h2] at hj'
      exact huniq i' j' ci cj hi' hj' hfi hfj

theorem fetchFly_set_not_fetching {α : Type} {l : List (CacheCons α)} {i : ℕ}
    {x : CacheCons α} {b : Prop} (hil : i < l.length)
    (hfly : ∀ (i' : ℕ) (ci : CacheCons α), l[i']? = some ci →
        ci.phase = CPhase.fetching → b)
    (hx : x.phase ≠ CPhase.fetching) :
    ∀ (i' : ℕ) (ci : CacheCons α), (l.set i x)[i']? = some ci →
        ci.phase = CPhase.fetching → b := by
  intro i' ci hi' hfi
  by_cases h1 : i = i'
  · exfalso
    subst h1
    rw [List.getElem?_set_self hil] at hi'
    injection hi' with hi'
    subst hi'
    exact hx hfi
  · rw [List.getElem?_set_ne h1] at hi'
    exact hfly i' ci hi' hfi

theorem cacheStep_inv {α : Type} [DecidableEq α] {up : List α} {st st' : CacheSt α}
    {i : ℕ} (h : cacheStep up st i = some st') (hinv : CInv up st) : CInv up st' := by
  obtain ⟨hpos, hvals, heosLast, heosPos, hflEos, huniq, hfly, hcons⟩ := hinv
  obtain ⟨c, hci, hcase⟩ := cacheStep_eq h
  have hil : i < st.cons.length := (List.getElem?_eq_some.mp hci).1
  have hcm : c ∈ st.cons := List.getElem?_mem hci
  rcases hcase with ⟨t, hph, ht, hst⟩ | ⟨v, hph, hv, hst⟩ | ⟨hph, hv, hst⟩ |
    ⟨v, hph, hl, hst⟩ | ⟨hph, hl, hst⟩ | ⟨hph, hl, hlast, hst⟩ |
    ⟨hph, hl, hlast, hif, hst⟩ | ⟨hph, hl, hlast, hif, hst⟩
  · -- waiting → running
    subst hst
    refine ⟨hpos, hvals, heosLast, heosPos, hflEos, ?_, ?_, ?_⟩
    · exact fetchUniq_set_not_fetching hil huniq (fun hx => by cases hx)
    · exact fetchFly_set_not_fetching hil hfly (fun hx => by cases hx)
    · refine forall_mem_set hcons ⟨?_, ?_⟩
      · intro hd
        exact absurd (show CPhase.running = CPhase.done from hd) (by decide)
      · intro _
        exact (hcons c hcm).2 (by rw [hph]; intro hx; cases hx)
  · -- fetching, upstream yields a value
    subst hst
    have hltp : st.pos < up.length := by
      by_contra hx
      push_neg at hx
      rw [List.getElem?_eq_none hx] at hv
      cases hv
    have hvv : up[st.pos] = v := by
      rw [List.getElem?_eq_getElem hltp] at hv
      injection hv
    have hift : st.inFlight = true := hfly i c hci hph
    have hnoeos : Entry.eos ∉ st.ledger := hflEos hift
    have hnofetch : ∀ (i' : ℕ) (ci : CacheCons α),
        (st.cons.set i { c with phase := CPhase.running })[i']? = some ci →
        ci.phase ≠ CPhase.fetching := by
      intro i' ci hi' hf
      by_cases h1 : i = i'
      · subst h1
        rw [List.getElem?_set_self hil] at hi'
        injection hi' with hi'
        subst hi'
        cases (show CPhase.running = CPhase.fetching from hf)
      · rw [List.getElem?_set_ne h1] at hi'
        exact h1 (huniq i' i ci c hi' hci hf hph).symm
    refine ⟨?_, ?_, ?_, ?_, ?_, ?_, ?_, ?_⟩
    · show st.pos + 1 ≤ up.length
      omega
    · show ledgerVals (st.ledger ++ [Entry.val v]) = up.take (st.pos + 1)
      rw [ledgerVals_append, ledgerVals_val, hvals, ← hvv]
      exact List.take_concat_get' up st.pos hltp
    · intro j hj
      replace hj : (st.ledger ++ [Entry.val v])[j]? = some Entry.eos := hj
      by_cases hjl : j < st.ledger.length
      · rw [List.getElem?_append_left hjl] at hj
        exact absurd (List.getElem?_mem hj) hnoeos
      · push_neg at hjl
        rw [List.getElem?_append_right hjl] at hj
        by_cases hje : j - st.ledger.length = 0
        · rw [hje] at hj
          injection hj with hj
          cases hj
        · have hnone : ([Entry.val v] : List (Entry α))[j - st.ledger.length]? = none := by
            apply List.getElem?_eq_none
            simp only [List.length_singleton]
            omega
          rw [hnone] at hj
          cases hj
    · intro hm
      rcases List.mem_append.mp hm with hm1 | hm2
      · exact absurd hm1 hnoeos
      · simp at hm2
    · intro hfalse
      cases hfalse
    · intro i' j' ci cj hi' hj' hfi hfj
      exact absurd hfi (hnofetch i' ci hi')
    · intro i' ci hi' hfi
      exact absurd hfi (hnofetch i' ci hi')
    · refine forall_mem_set (fun c' hc' => ?_) ⟨?_, ?_⟩
      · obtain ⟨hdone, hnotdone⟩ := hcons c' hc'
        refine ⟨hdone, ?_⟩
        intro hnd
        obtain ⟨hidx, hobs⟩ := hnotdone hnd
        constructor
        · show c'.idx ≤ (st.ledger ++ [Entry.val v]).length
          rw [List.length_append]
          simp only [List.length_singleton]
          omega
        · show c'.obs = ledgerVals ((st.ledger ++ [Entry.val v]).take c'.idx)
          rw [List.take_append_of_le_length hidx]
          exact hobs
      · intro hd
        exact absurd (show CPhase.running = CPhase.done from hd) (by decide)
      · intro _
        obtain ⟨hidx, hobs⟩ := (hcons c hcm).2 (by rw [hph]; intro hx; cases hx)
        constructor
        · show c.idx ≤ (st.ledger ++ [Entry.val v]).length
          rw [List.length_append]
          simp only [List.length_singleton]
          omega
        · show c.obs = ledgerVals ((st.ledger ++ [Entry.val v]).take c.idx)
          rw [List.take_append_of_le_length hidx]
          exact hobs
  · -- fetching, upstream exhausted: append the end-of-stream entry
    subst hst
    have hgep : up.length ≤ st.pos := by
      by_contra hx
      push_neg at hx
      rw [List.getElem?_eq_getElem hx] at hv
      cases hv
    have hpe : st.pos = up.length := by omega
    have hift : st.inFlight = true := hfly i c hci hph
    have hnoeos : Entry.eos ∉ st.ledger := hflEos hift
    have hnofetch : ∀ (i' : ℕ) (ci : CacheCons α),
        (st.cons.set i { c with phase := CPhase.running })[i']? = some ci →
        ci.phase ≠ CPhase.fetching := by
      intro i' ci hi' hf
      by_cases h1 : i = i'
      · subst h1
        rw [List.getElem?_set_self hil] at hi'
        injection hi' with hi'
        subst hi'
        cases (show CPhase.running = CPhase.fetching from hf)
      · rw [List.getElem?_set_ne h1] at hi'
        exact h1 (huniq i' i ci c hi' hci hf hph).symm
    refine ⟨hpos, ?_, ?_, ?_, ?_, ?_, ?_, ?_⟩
    · show ledgerVals (st.ledger ++ [Entry.eos]) = up.take st.pos
      rw [ledgerVals_append, ledgerVals_eos, List.append_nil]
      exact hvals
    · intro j hj
      replace hj : (st.ledger ++ [Entry.eos])[j]? = some Entry.eos := hj
      show j + 1 = (st.ledger ++ [Entry.eos]).length
      rw [List.length_append, List.length_singleton]
      by_cases hjl : j < st.ledger.length
      · rw [List.getElem?_append_left hjl] at hj
        exact absurd (List.getElem?_mem hj) hnoeos
      · push_neg at hjl
        by_cases hje : j - st.ledger.length = 0
        · omega
        · rw [List.getElem?_append_right hjl] at hj
          have hnone : ([Entry.eos] : List (Entry α))[j - st.ledger.length]? = none := by
            apply List.getElem?_eq_none
            simp only [List.length_singleton]
            omega
          rw [hnone] at hj
          cases hj
    · intro _
      exact hpe
    · intro hfalse
      cases hfalse
    · intro i' j' ci cj hi' hj' hfi hfj
      exact absurd hfi (hnofetch i' ci hi')
    · intro i' ci hi' hfi
      exact absurd hfi (hnofetch i' ci hi')
    · refine forall_mem_set (fun c' hc' => ?_) ⟨?_, ?_⟩
      · obtain ⟨hdone, hnotdone⟩ := hcons c' hc'
        refine ⟨hdone, ?_⟩
        intro hnd
        obtain ⟨hidx, hobs⟩ := hnotdone hnd
        constructor
        · show c'.idx ≤ (st.ledger ++ [Entry.eos]).length
          rw [List.length_append]
          simp only [List.length_singleton]
          omega
        · show c'.obs = ledgerVals ((st.ledger ++ [Entry.eos]).take c'.idx)
          rw [List.take_append_of_le_length hidx]
          exact hobs
      · intro hd
        exact absurd (show CPhase.running = CPhase.done from hd) (by decide)
      · intro _
        obtain ⟨hidx, hobs⟩ := (hcons c hcm).2 (by rw [hph]; intro hx; cases hx)
        constructor
        · show c.idx ≤ (st.ledger ++ [Entry.eos]).length
          rw [List.length_append]
          simp only [List.length_singleton]
          omega
        · show c.obs = ledgerVals ((st.ledger ++ [Entry.eos]).take c.idx)
          rw [List.take_append_of_le_length hidx]
          exact hobs
  · -- running, ledger entry is a value: observe it
    subst hst
    have hidxlt : c.idx < st.ledger.length := (List.getElem?_eq_some.mp hl).1
    have hle : st.ledger[c.idx] = Entry.val v := by
      rw [List.getElem?_eq_getElem hidxlt] at hl
      injection hl
    refine ⟨hpos, hvals, heosLast, heosPos, hflEos, ?_, ?_, ?_⟩
    · exact fetchUniq_set_not_fetching hil huniq (fun hx => by cases hx)
    · exact fetchFly_set_not_fetching hil hfly (fun hx => by cases hx)
    · refine forall_mem_set hcons ⟨?_, ?_⟩
      · intro hd
        exact absurd (show CPhase.running = CPhase.done from hd) (by decide)
      · intro _
        obtain ⟨hidx, hobs⟩ := (hcons c hcm).2 (by rw [hph]; intro hx; cases hx)
        constructor
        · show c.idx + 1 ≤ st.ledger.length
          omega
        · show c.obs ++ [v] = ledgerVals (st.ledger.take (c.idx + 1))
          rw [← List.take_concat_get' st.ledger c.idx hidxlt, ledgerVals_append, hle,
            ledgerVals_val, hobs]
  · -- running, ledger entry is the stored end-of-stream: finish
    subst hst
    have hidxlt : c.idx < st.ledger.length := (List.getElem?_eq_some.mp hl).1
    have hle : st.ledger[c.idx] = Entry.eos := by
      rw [List.getElem?_eq_getElem hidxlt] at hl
      injection hl
    have hlen : c.idx + 1 = st.ledger.length := heosLast c.idx hl
    have hpe : st.pos = up.length := heosPos (List.getElem?_mem hl)
    refine ⟨hpos, hvals, heosLast, heosPos, hflEos, ?_, ?_, ?_⟩
    · exact fetchUniq_set_not_fetching hil huniq (fun hx => by cases hx)
    · exact fetchFly_set_not_fetching hil hfly (fun hx => by cases hx)
    · refine forall_mem_set hcons ⟨?_, ?_⟩
      · intro _
        obtain ⟨hidx, hobs⟩ := (hcons c hcm).2 (by rw [hph]; intro hx; cases hx)
        show c.obs = up
        have h1 : st.ledger.take (c.idx + 1) = st.ledger := by
          rw [hlen]
          exact List.take_length _
        have h2 : ledgerVals (st.ledger.take (c.idx + 1)) =
            ledgerVals (st.ledger.take c.idx) := by
          rw [← List.take_concat_get' st.ledger c.idx hidxlt, ledgerVals_append, hle,
            ledgerVals_eos, List.append_nil]
        rw [hobs, ← h2, h1, hvals, hpe, List.take_length]
      · intro hnd
        exact absurd rfl (show ¬(CPhase.done = CPhase.done) from hnd)
  · -- running, ledger exhausted with stored end-of-stream last: finish
    subst hst
    have hidxge : st.ledger.length ≤ c.idx := by
      by_contra hx
      push_neg at hx
      rw [List.getElem?_eq_getElem hx] at hl
      cases hl
    have hmem : Entry.eos ∈ st.ledger := by
      rw [List.getLast?_eq_getElem?] at hlast
      exact List.getElem?_mem hlast
    have hpe : st.pos = up.length := heosPos hmem
    refine ⟨hpos, hvals, heosLast, heosPos, hflEos, ?_, ?_, ?_⟩
    · exact fetchUniq_set_not_fetching hil huniq (fun hx => by cases hx)
    · exact fetchFly_set_not_fetching hil hfly (fun hx => by cases hx)
    · refine forall_mem_set hcons ⟨?_, ?_⟩
      · intro _
        obtain ⟨hidx, hobs⟩ := (hcons c hcm).2 (by rw [hph]; intro hx; cases hx)
        show c.obs = up
        have hidxeq : c.idx = st.ledger.length := by omega
        rw [hobs, hidxeq, List.take_length, hvals, hpe, List.take_length]
      · intro hnd
        exact absurd rfl (show ¬(CPhase.done = CPhase.done) from hnd)
  · -- running, miss with a fetch in flight: wait for it
    subst hst
    refine ⟨hpos, hvals, heosLast, heosPos, hflEos, ?_, ?_, ?_⟩
    · exact fetchUniq_set_not_fetching hil huniq (fun hx => by cases hx)
    · exact fetchFly_set_not_fetching hil hfly (fun hx => by cases hx)
    · refine forall_mem_set hcons ⟨?_, ?_⟩
      · intro hd
        cases (show CPhase.waiting st.completed = CPhase.done from hd)
      · intro _
        exact (hcons c hcm).2 (by rw [hph]; intro hx; cases hx)
  · -- running, miss with no fetch in flight: become the single fetcher
    subst hst
    have honlyi : ∀ (k : ℕ) (ck : CacheCons α),
        (st.cons.set i { c with phase := CPhase.fetching })[k]? = some ck →
        ck.phase = CPhase.fetching → k = i := by
      intro k ck hk hf
      by_cases h1 : i = k
      · exact h1.symm
      · rw [List.getElem?_set_ne h1] at hk
        have := hfly k ck hk hf
        rw [hif] at this
        cases this
    refine ⟨hpos, hvals, heosLast, heosPos, ?_, ?_, ?_, ?_⟩
    · intro _
      intro hmem
      obtain ⟨j, hj⟩ := List.mem_iff_getElem?.mp hmem
      have hlen := heosLast j hj
      apply hlast
      rw [List.getLast?_eq_getElem?]
      have hj' : st.ledger.length - 1 = j := by omega
      rw [hj']
      exact hj
    · intro i' j' ci cj hi' hj' hfi hfj
      rw [honlyi i' ci hi' hfi, honlyi j' cj hj' hfj]
    · intro i' ci hi' hfi
      rfl
    · refine forall_mem_set hcons ⟨?_, ?_⟩
      · intro hd
        exact absurd (show CPhase.fetching = CPhase.done from hd) (by decide)
      · intro _
        exact (hcons c hcm).2 (by rw [hph]; intro hx; cases hx)

/-- Claim C1: for a Cache over an upstream yielding a fixed finite sequence
`up` once, with any number `n` of concurrently running independent replay
consumers and any interleaving of their atomic steps: at most one upstream
pull is ever in flight (any two fetching consumers coincide), every consumer
that has finished its replay observed exactly the complete sequence `up` in
order, the upstream is never pulled past its end (the ledger values are
always precisely the first `pos ≤ length` upstream frames, each pulled
exactly once, never re-pulled per replay), and a ledger entry, once written,
never changes (every step extends the ledger without modifying existing
entries). -/
theorem cache_single_flight_replay {α : Type} [DecidableEq α] (up : List α) (n : ℕ) :
    (∀ (acts : List ℕ) (st' : CacheSt α),
        runSteps (cacheStep up) (cacheInit α n) acts = some st' →
        (∀ (i j : ℕ) (ci cj : CacheCons α), st'.cons[i]? = some ci →
            st'.cons[j]? = some cj → ci.phase = CPhase.fetching →
            cj.phase = CPhase.fetching → i = j) ∧
        (∀ c ∈ st'.cons, c.phase = CPhase.done → c.obs = up) ∧
        st'.pos ≤ up.length ∧
        ledgerVals st'.ledger = up.take st'.pos) ∧
    (∀ (st : CacheSt α) (a : ℕ) (st' : CacheSt α),
        cacheStep up st a = some st' → st.ledger <+: st'.ledger) := by
  constructor
  · intro acts st' hrun
    have hinv : CInv up st' :=
      runSteps_inv (cacheStep up) (CInv up) (fun s a s' hs hP => cacheStep_inv hs hP)
        acts _ st' hrun (cacheInit_inv up n)
    obtain ⟨hpos, hvals, -, -, -, huniq, -, hcons⟩ := hinv
    exact ⟨huniq, fun c hm hd => (hcons c hm).1 hd, hpos, hvals⟩
  · intro st a st' hstep
    obtain ⟨c, -, hcase⟩ := cacheStep_eq hstep
    rcases hcase with ⟨t, -, -, hst⟩ | ⟨v, -, -, hst⟩ | ⟨-, -, hst⟩ | ⟨v, -, -, hst⟩ |
      ⟨-, -, hst⟩ | ⟨-, -, -, hst⟩ | ⟨-, -, -, -, hst⟩ | ⟨-, -, -, -, hst⟩ <;>
      subst hst <;>
      first
        | exact List.prefix_refl _
        | exact List.prefix_append _ _

/-- Witness for C1: ten replay consumers over upstream `[2, 56, 34]` under a
fair round-robin schedule all finish having observed `[2, 56, 34]`, with the
upstream pulled exactly 3 times (`pos = 3`) and the ledger extended
append-only. -/
theorem cache_single_flight_replay_witness :
    (∀ c ∈ (⟨3, [Entry.val 2, Entry.val 56, Entry.val 34, Entry.eos], false, 4,
          List.replicate 10 ⟨3, [2, 56, 34], CPhase.done⟩⟩ : CacheSt ℕ).cons,
        c.phase = CPhase.done → c.obs = [2, 56, 34]) ∧
    (⟨3, [Entry.val 2, Entry.val 56, Entry.val 34, Entry.eos], false, 4,
        List.replicate 10 ⟨3, [2, 56, 34], CPhase.done⟩⟩ : CacheSt ℕ).pos = 3 ∧
    ([Entry.val 2, Entry.val 56, Entry.val 34] : List (Entry ℕ)) <+:
      [Entry.val 2, Entry.val 56, Entry.val 34, Entry.eos] := by
  have h := cache_single_flight_replay (α := ℕ) [2, 56, 34] 10
  refine ⟨?_, rfl, ?_⟩
  · exact (h.1 (rrActs [2, 56, 34] 300 (cacheInit ℕ 10))
      ⟨3, [Entry.val 2, Entry.val 56, Entry.val 34, Entry.eos], false, 4,
        List.replicate 10 ⟨3, [2, 56, 34], CPhase.done⟩⟩ (by decide)).2.1
  · exact h.2 ⟨3, [Entry.val 2, Entry.val 56, Entry.val 34], true, 3,
      [⟨3, [2, 56, 34], CPhase.fetching⟩]⟩ 0
      ⟨3, [Entry.val 2, Entry.val 56, Entry.val 34, Entry.eos], false, 4,
        [⟨3, [2, 56, 34], CPhase.running⟩]⟩ (by decide)

/-!
## Theorems: slow-start chunk sizing
-/

theorem floor_le_pyround (q : ℚ) : ⌊q⌋ ≤ pyround q := by
  unfold pyround
  split
  · exact le_refl _
  · split
    · omega
    · split
      · exact le_refl _
      · omega

theorem pyround_le_ceil (q : ℚ) : pyround q ≤ ⌈q⌉ := by
  have hfc : ⌊q⌋ ≤ ⌈q⌉ := Int.floor_le_ceil q
  have hlt : ∀ (hq : (⌊q⌋ : ℚ) < q), ⌊q⌋ + 1 ≤ ⌈q⌉ := fun hq => Int.lt_ceil.mpr hq
  unfold pyround
  split
  · exact hfc
  · next h1 =>
      split
      · next h2 =>
          apply hlt
          have := Int.floor_le q
          linarith
      · next h2 =>
          have hq : (⌊q⌋ : ℚ) < q := by
            have := Int.floor_le q
            have h3 : ¬(q - ⌊q⌋ < 1 / 2) := h1
            push_neg at h3
            linarith
          split
          · exact hfc
          · exact hlt hq

theorem le_pyround_mul {m : ℤ} {mult : ℚ} (hm : 0 ≤ m) (hmult : 1 ≤ mult) :
    m ≤ pyround ((m : ℚ) * mult) := by
  have h1 : (m : ℚ) ≤ (m : ℚ) * mult :=
    le_mul_of_one_le_right (by exact_mod_cast hm) hmult
  have h2 : m ≤ ⌊(m : ℚ) * mult⌋ := Int.le_floor.mpr h1
  exact le_trans h2 (floor_le_pyround _)

theorem pyround_div_le {m : ℤ} {mult : ℚ} (hm : 0 ≤ m) (hmult : 1 ≤ mult) :
    pyround ((m : ℚ) / mult) ≤ m := by
  have h1 : (m : ℚ) / mult ≤ (m : ℚ) := div_le_self (by exact_mod_cast hm) hmult
  have h2 : ⌈(m : ℚ) / mult⌉ ≤ m := Int.ceil_le.mpr h1
  exact le_trans (pyround_le_ceil _) h2

/-- Claim C2 counterexample: a slow-start producer at
`minSize = maxSize = 8` (`initialMinSize = 1`, `multiplier = 2`) receiving a
*fast* `next()` call falls into the division branch of
`_calculate_chunk_size` (the multiplication branch requires
`_min_size < _max_size`) and the running min size strictly decreases from 8
to 4, refuting `the running min size is non-decreasing whenever consecutive
calls arrive less than interval seconds apart (up to maxSize)`. -/
theorem slow_start_fast_at_max_decreases :
    (calculateChunkSize ⟨8, 8, 1, 2, true⟩ true).minSize = 4 ∧ ¬((8 : ℤ) ≤ 4) := by
  constructor
  · norm_num [calculateChunkSize, pyround]
  · norm_num

theorem calculateChunkSize_fields (st : SlowSt) (fast : Bool) :
    (calculateChunkSize st fast).maxSize = st.maxSize ∧
    (calculateChunkSize st fast).initialMinSize = st.initialMinSize ∧
    (calculateChunkSize st fast).multiplier = st.multiplier := by
  unfold calculateChunkSize
  split <;> simp

theorem calculateChunkSize_minSize_true (st : SlowSt) (fast : Bool)
    (hdt : st.lastDt = true) :
    (calculateChunkSize st fast).minSize =
      max (min (if fast = true ∧ st.minSize < st.maxSize then
            pyround ((st.minSize : ℚ) * st.multiplier)
          else if st.initialMinSize < st.minSize then
            pyround ((st.minSize : ℚ) / st.multiplier)
          else st.minSize) st.maxSize) st.initialMinSize := by
  simp [calculateChunkSize, hdt]

theorem calculateChunkSize_minSize_false (st : SlowSt) (fast : Bool)
    (hdt : st.lastDt = false) :
    (calculateChunkSize st fast).minSize = st.initialMinSize := by
  simp [calculateChunkSize, hdt]

/-- Claim C2 (amended): across successive `next()` calls after the first
(`lastDt = true`), the running min size is non-decreasing whenever the call
arrives less than `interval` seconds apart *and the running min size is
still below `maxSize`*; in every other case (a slow call, or a fast call
with the size already at `maxSize`) it is non-increasing (moving back toward
the initial min size); the first call resets it to the initial min size; and
after every call the running min size lies within
`[initialMinSize, maxSize]` (the constructor invariant is preserved). -/
theorem slow_start_monotone_bounds (st : SlowSt) (fast : Bool) (h : SlowInv st) :
    (st.lastDt = true → fast = true → st.minSize < st.maxSize →
        st.minSize ≤ (calculateChunkSize st fast).minSize) ∧
    (st.lastDt = true → ¬(fast = true ∧ st.minSize < st.maxSize) →
        (calculateChunkSize st fast).minSize ≤ st.minSize) ∧
    (st.lastDt = false → (calculateChunkSize st fast).minSize = st.initialMinSize) ∧
    (st.initialMinSize ≤ (calculateChunkSize st fast).minSize ∧
        (calculateChunkSize st fast).minSize ≤ st.maxSize) ∧
    SlowInv (calculateChunkSize st fast) := by
  obtain ⟨hinit, himin, hminmax, hmult⟩ := h
  have hm0 : (0 : ℤ) ≤ st.minSize := by omega
  obtain ⟨hmax, hini, hmul⟩ := calculateChunkSize_fields st fast
  cases hdt : st.lastDt with
  | false =>
      have hmin := calculateChunkSize_minSize_false st fast hdt
      refine ⟨fun hc => by simp [hdt] at hc, fun hc => by simp [hdt] at hc,
        fun _ => hmin, ⟨by omega, by omega⟩, ?_⟩
      unfold SlowInv
      rw [hmin, hmax, hini, hmul]
      exact ⟨hinit, le_refl _, by omega, hmult⟩
  | true =>
      have hmin := calculateChunkSize_minSize_true st fast hdt
      by_cases hfl : fast = true ∧ st.minSize < st.maxSize
      · rw [if_pos hfl] at hmin
        have hup : st.minSize ≤ pyround ((st.minSize : ℚ) * st.multiplier) :=
          le_pyround_mul hm0 hmult
        refine ⟨fun _ _ _ => by rw [hmin]; omega, fun _ hc => absurd hfl hc,
          fun hc => by simp [hdt] at hc, ⟨by rw [hmin]; omega, by rw [hmin]; omega⟩, ?_⟩
        unfold SlowInv
        rw [hmin, hmax, hini, hmul]
        exact ⟨hinit, by omega, by omega, hmult⟩
      · rw [if_neg hfl] at hmin
        by_cases hgt : st.initialMinSize < st.minSize
        · rw [if_pos hgt] at hmin
          have hdn : pyround ((st.minSize : ℚ) / st.multiplier) ≤ st.minSize :=
            pyround_div_le hm0 hmult
          refine ⟨fun _ hf hlt => absurd ⟨hf, hlt⟩ hfl, fun _ _ => by rw [hmin]; omega,
            fun hc => by simp [hdt] at hc, ⟨by rw [hmin]; omega, by rw [hmin]; omega⟩, ?_⟩
          unfold SlowInv
          rw [hmin, hmax, hini, hmul]
          exact ⟨hinit, by omega, by omega, hmult⟩
        · rw [if_neg hgt] at hmin
          refine ⟨fun _ hf hlt => absurd ⟨hf, hlt⟩ hfl, fun _ _ => by rw [hmin]; omega,
            fun hc => by simp [hdt] at hc, ⟨by rw [hmin]; omega, by rw [hmin]; omega⟩, ?_⟩
          unfold SlowInv
          rw [hmin, hmax, hini, hmul]
          exact ⟨hinit, by omega, by omega, hmult⟩

/-- Witness for C2 (amended): a fast call below `maxSize` grows the size,
a slow call shrinks it, and the bounds hold, on concrete states. -/
theorem slow_start_monotone_bounds_witness :
    ((2 : ℤ) ≤ (calculateChunkSize ⟨2, 8, 1, 2, true⟩ true).minSize) ∧
    ((calculateChunkSize ⟨4, 8, 1, 2, true⟩ false).minSize ≤ 4) ∧
    ((1 : ℤ) ≤ (calculateChunkSize ⟨4, 8, 1, 2, true⟩ false).minSize ∧
        (calculateChunkSize ⟨4, 8, 1, 2, true⟩ false).minSize ≤ 8) := by
  have h1 := slow_start_monotone_bounds ⟨2, 8, 1, 2, true⟩ true
    ⟨by norm_num, by norm_num, by norm_num, by norm_num⟩
  have h2 := slow_start_monotone_bounds ⟨4, 8, 1, 2, true⟩ false
    ⟨by norm_num, by norm_num, by norm_num, by norm_num⟩
  exact ⟨h1.1 rfl rfl (by norm_num), h2.2.1 rfl (by simp), h2.2.2.2.1⟩

end Pyrill
